import Mathlib

/-!
Verification of the two algorithmic cores of the pbuildrs repository:
the edition patcher (src/patcher.rs) and the module tree builder/compiler
(src/modgen.rs), shallowly embedded over byte lists and an explicit
file-system state.
-/

set_option autoImplicit false

namespace Patcher

/-- Error type of the patcher (src/patcher.rs, `enum Error`). In this pure model
the read and write I/O failures cannot occur; only the internal-consistency
error `invalidState` remains reachable in principle. -/
inductive Error where
  | read
  | write
  | invalidState
  deriving DecidableEq, Repr

/-- Patch outcome (src/patcher.rs, `enum Outcome`). -/
inductive Outcome where
  | untouched
  | replaced
  deriving DecidableEq, Repr

/-- Saved scanning phase while inside a comment (src/patcher.rs, `enum CommentContext`). -/
inductive CommentContext where
  | none
  | editionWhitespacePost (pos : Nat)
  | editionEqual (pos : Nat)
  | editionEqualWhitespacePost (pos : Nat)
  deriving DecidableEq, Repr

/-- Lexer state (src/patcher.rs, `enum State`). Byte positions are offsets into
the current line buffer. -/
inductive State where
  | none
  | commentPending (startAt : Nat) (ctx : CommentContext)
  | commentSingleLine (startAt : Nat) (ctx : CommentContext)
  | commentMultiLine (startAt : Nat) (ctx : CommentContext)
  | commentMultiLineEndPending (startAt : Nat) (ctx : CommentContext)
  | edition (startAt : Nat) (idx : Nat)
  | editionWhitespacePost (startAt : Nat)
  | editionEqual (startAt : Nat)
  | editionEqualWhitespacePost (startAt : Nat)
  | editionOpenQuote (startAt : Nat)
  | editionValueEscape (startAt : Nat)
  | editionValue (startAt : Nat)
  | editionCloseQuote (startAt : Nat)
  | complete (bounds : Option (Nat × Nat))
  deriving DecidableEq, Repr

/-- Conversion of a lexer state into a saved comment context
(src/patcher.rs, `impl TryFrom<State> for CommentContext`). -/
def tryIntoCtx : State → Except Error CommentContext
  | .none => .ok .none
  | .editionWhitespacePost pos => .ok (.editionWhitespacePost pos)
  | .editionEqual pos => .ok (.editionEqual pos)
  | .editionEqualWhitespacePost pos => .ok (.editionEqualWhitespacePost pos)
  | .edition pos 6 => .ok (.editionWhitespacePost pos)
  | _ => .error .invalidState

/-- Restoring the saved phase when a comment ends
(src/patcher.rs, `impl From<CommentContext> for State`). -/
def ctxIntoState : CommentContext → State
  | .none => .none
  | .editionWhitespacePost pos => .editionWhitespacePost pos
  | .editionEqual pos => .editionEqual pos
  | .editionEqualWhitespacePost pos => .editionEqualWhitespacePost pos

/-- Rust `u8::is_ascii_whitespace`: space, tab, line feed, form feed, carriage return. -/
def isWs (ch : Nat) : Bool :=
  ch == 32 || ch == 9 || ch == 10 || ch == 12 || ch == 13

/-- One byte step of the lexer (src/patcher.rs, `State::next_token`).
`ch` is the byte, `pos` its offset in the current line buffer. The Rust arms
that join two states with `|` (EditionEqual with EditionEqualWhitespacePost,
and EditionOpenQuote with EditionValue) are written here as two arms with the
same body; `self.try_into()?` becomes `← tryIntoCtx <the current state>`. -/
def next_token : State → Nat → Nat → Except Error State
  | .complete b, _, _ => .ok (.complete b)
  | .none, ch, pos =>
    if ch == 101 then .ok (.edition pos 0)
    else if ch == 47 then do .ok (.commentPending pos (← tryIntoCtx .none))
    else if isWs ch then .ok .none
    else .ok (.complete Option.none)
  | .commentPending startAt ctx, ch, _ =>
    if ch == 47 then .ok (.commentSingleLine startAt ctx)
    else if ch == 42 then .ok (.commentMultiLine startAt ctx)
    else .ok (.complete Option.none)
  | .commentSingleLine startAt ctx, ch, _ =>
    if ch == 10 then .ok (ctxIntoState ctx)
    else .ok (.commentSingleLine startAt ctx)
  | .commentMultiLine startAt ctx, ch, _ =>
    if ch == 42 then .ok (.commentMultiLineEndPending startAt ctx)
    else .ok (.commentMultiLine startAt ctx)
  | .commentMultiLineEndPending startAt ctx, ch, _ =>
    if ch == 47 then .ok (ctxIntoState ctx)
    else .ok (.commentMultiLine startAt ctx)
  | .edition startAt idx, ch, _ =>
    if (idx == 0 && ch == 100) || (idx == 1 && ch == 105) || (idx == 2 && ch == 116)
        || (idx == 3 && ch == 105) || (idx == 4 && ch == 111) || (idx == 5 && ch == 110) then
      .ok (.edition startAt (idx + 1))
    else if idx == 6 && ch == 61 then .ok (.editionEqual startAt)
    else if idx == 6 && ch == 47 then do
      .ok (.commentPending startAt (← tryIntoCtx (.edition startAt idx)))
    else if idx == 6 && isWs ch then .ok (.editionWhitespacePost startAt)
    else .ok (.complete Option.none)
  | .editionWhitespacePost startAt, ch, _ =>
    if ch == 61 then .ok (.editionEqual startAt)
    else if ch == 47 then do
      .ok (.commentPending startAt (← tryIntoCtx (.editionWhitespacePost startAt)))
    else if isWs ch then .ok (.editionWhitespacePost startAt)
    else .ok (.complete Option.none)
  | .editionEqual startAt, ch, _ =>
    if ch == 34 then .ok (.editionOpenQuote startAt)
    else if ch == 47 then do
      .ok (.commentPending startAt (← tryIntoCtx (.editionEqual startAt)))
    else if isWs ch then .ok (.editionEqualWhitespacePost startAt)
    else .ok (.complete Option.none)
  | .editionEqualWhitespacePost startAt, ch, _ =>
    if ch == 34 then .ok (.editionOpenQuote startAt)
    else if ch == 47 then do
      .ok (.commentPending startAt (← tryIntoCtx (.editionEqualWhitespacePost startAt)))
    else if isWs ch then .ok (.editionEqualWhitespacePost startAt)
    else .ok (.complete Option.none)
  | .editionOpenQuote startAt, ch, _ =>
    if ch == 34 then .ok (.editionCloseQuote startAt)
    else if ch == 92 then .ok (.editionValueEscape startAt)
    else .ok (.editionValue startAt)
  | .editionValue startAt, ch, _ =>
    if ch == 34 then .ok (.editionCloseQuote startAt)
    else if ch == 92 then .ok (.editionValueEscape startAt)
    else .ok (.editionValue startAt)
  | .editionValueEscape startAt, _, _ => .ok (.editionValue startAt)
  | .editionCloseQuote startAt, _, pos => .ok (.complete (some (startAt, pos)))

/-- Flush bounds of the current state (src/patcher.rs, `State::get_bounds`). -/
def get_bounds : State → Option (Nat × Option Nat)
  | .complete Option.none => Option.none
  | .none => Option.none
  | .complete (some (a, b)) => some (a, some b)
  | .commentPending a _ => some (a, Option.none)
  | .commentSingleLine a _ => some (a, Option.none)
  | .commentMultiLine a _ => some (a, Option.none)
  | .commentMultiLineEndPending a _ => some (a, Option.none)
  | .edition a _ => some (a, Option.none)
  | .editionWhitespacePost a => some (a, Option.none)
  | .editionEqual a => some (a, Option.none)
  | .editionEqualWhitespacePost a => some (a, Option.none)
  | .editionOpenQuote a => some (a, Option.none)
  | .editionValueEscape a => some (a, Option.none)
  | .editionValue a => some (a, Option.none)
  | .editionCloseQuote a => some (a, Option.none)

/-- Folding `next_token` over the bytes of the line buffer with positions, as in
`line.iter().enumerate().try_fold(state, ...)` (src/patcher.rs, `patch_edition`);
called with `pos = 0` since `enumerate` numbers from the start of the buffer. -/
def foldBytes : State → Nat → List Nat → Except Error State
  | s, _, [] => .ok s
  | s, pos, ch :: rest => do foldBytes (← next_token s ch pos) (pos + 1) rest

/-- State reset after each line is handled
(src/patcher.rs, `patch_edition`, the final `match state`). -/
def resetState : State → State
  | .complete (some _) => .complete Option.none
  | .complete Option.none => .complete Option.none
  | _ => .none

/-- Splits the input into the successive buffers returned by
`read_until(b'\n')`: each chunk ends with a newline byte except possibly the
last, and no other newline occurs inside a chunk. -/
def chunks : List Nat → List (List Nat)
  | [] => []
  | ch :: rest =>
    if ch == 10 then [ch] :: chunks rest
    else match chunks rest with
      | [] => [[ch]]
      | c :: cs => (ch :: c) :: cs

/-- The literal replacement bytes, `syntax = "proto3"` in ASCII
(src/patcher.rs, `patch_edition`). -/
def replacementBytes : List Nat :=
  [115, 121, 110, 116, 97, 120, 32, 61, 32, 34, 112, 114, 111, 116, 111, 51, 34]

/-- The per-line loop of `patch_edition` (src/patcher.rs). `buf` is the retained
part of the line buffer (bytes read but not yet flushed, kept by `line.drain`),
`lines` the chunks still to be read, `out` the bytes written so far. When the
chunks run out (`read_until` returns 0) the loop exits, dropping `buf`. -/
def patchLoop : State → List Nat → List (List Nat) → List Nat → Outcome →
    Except Error (Outcome × List Nat)
  | _, _, [], out, outcome => .ok (outcome, out)
  | state, buf, chunk :: rest, out, outcome => do
    let line := buf ++ chunk
    let s ← foldBytes state 0 line
    match get_bounds s with
    | some (a, some b) =>
      patchLoop (resetState s) [] rest
        (out ++ line.take a ++ replacementBytes ++ line.drop b) .replaced
    | some (a, Option.none) =>
      patchLoop (resetState s) (line.drop a) rest (out ++ line.take a) outcome
    | Option.none =>
      patchLoop (resetState s) [] rest (out ++ line) outcome

/-- The edition patcher (src/patcher.rs, `patch_edition`), with the input and
output streams modelled as byte lists. -/
def patch_edition (input : List Nat) : Except Error (Outcome × List Nat) :=
  patchLoop .none [] (chunks input) [] .untouched

/-- Reference one-pass scan: runs the lexer once over the whole file with global
byte positions and no line buffering; `some (a, b)` means a top-level edition
declaration matched, occupying exactly bytes `[a, b)` of the file. -/
def specScan (input : List Nat) : Option (Nat × Nat) :=
  match foldBytes .none 0 input with
  | .ok (.complete (some p)) => some p
  | _ => Option.none

instance {e a : Type} [DecidableEq e] [DecidableEq a] : DecidableEq (Except e a) := fun x y =>
  match x, y with
  | .ok v, .ok w => if h : v = w then .isTrue (by rw [h]) else .isFalse (by simp [h])
  | .error v, .error w => if h : v = w then .isTrue (by rw [h]) else .isFalse (by simp [h])
  | .ok _, .error _ => .isFalse (by simp)
  | .error _, .ok _ => .isFalse (by simp)

/-- ASCII string to byte list, for writing concrete inputs. -/
def strBytes (s : String) : List Nat := s.data.map Char.toNat

-- Sanity checks against the unit tests of src/patcher.rs.
example :
    patch_edition (strBytes "edition = \"2023\";\npackage crabs;\n") =
      .ok (.replaced, strBytes "syntax = \"proto3\";\npackage crabs;\n") := by
  decide

example :
    patch_edition (strBytes "edition =\t\t\"2023\" ;\npackage crabs;\n") =
      .ok (.replaced, strBytes "syntax = \"proto3\" ;\npackage crabs;\n") := by
  decide

example :
    patch_edition (strBytes "/* c */ edition = \"2023\";\n") =
      .ok (.replaced, strBytes "/* c */ syntax = \"proto3\";\n") := by
  decide

example :
    patch_edition (strBytes "/* a\nb */\nedition = \"2023\";\n") =
      .ok (.replaced, strBytes "/* a\nb */\nsyntax = \"proto3\";\n") := by
  decide

example :
    patch_edition (strBytes "edition/* x */// y\n= /*z*/\"2023\"\n;\n") =
      .ok (.replaced, strBytes "syntax = \"proto3\"\n;\n") := by
  decide

example :
    patch_edition (strBytes "\n  syntax = \"proto3\";\nmessage F\n") =
      .ok (.untouched, strBytes "\n  syntax = \"proto3\";\nmessage F\n") := by
  decide

example :
    patch_edition (strBytes "/* edition = \"2023\"; */\nsyntax = \"proto3\";\n") =
      .ok (.untouched, strBytes "/* edition = \"2023\"; */\nsyntax = \"proto3\";\n") := by
  decide


/-- Total mirror of `next_token`: the same transition function with the
(unreachable) `invalidState` branches resolved; `next_token_eq_step` below
proves it agrees with `next_token` everywhere. -/
def step : State → Nat → Nat → State
  | .complete b, _, _ => .complete b
  | .none, ch, pos =>
    if ch == 101 then .edition pos 0
    else if ch == 47 then .commentPending pos .none
    else if isWs ch then .none
    else .complete Option.none
  | .commentPending a c, ch, _ =>
    if ch == 47 then .commentSingleLine a c
    else if ch == 42 then .commentMultiLine a c
    else .complete Option.none
  | .commentSingleLine a c, ch, _ =>
    if ch == 10 then ctxIntoState c else .commentSingleLine a c
  | .commentMultiLine a c, ch, _ =>
    if ch == 42 then .commentMultiLineEndPending a c else .commentMultiLine a c
  | .commentMultiLineEndPending a c, ch, _ =>
    if ch == 47 then ctxIntoState c else .commentMultiLine a c
  | .edition a i, ch, _ =>
    if (i == 0 && ch == 100) || (i == 1 && ch == 105) || (i == 2 && ch == 116)
        || (i == 3 && ch == 105) || (i == 4 && ch == 111) || (i == 5 && ch == 110) then
      .edition a (i + 1)
    else if i == 6 && ch == 61 then .editionEqual a
    else if i == 6 && ch == 47 then .commentPending a (.editionWhitespacePost a)
    else if i == 6 && isWs ch then .editionWhitespacePost a
    else .complete Option.none
  | .editionWhitespacePost a, ch, _ =>
    if ch == 61 then .editionEqual a
    else if ch == 47 then .commentPending a (.editionWhitespacePost a)
    else if isWs ch then .editionWhitespacePost a
    else .complete Option.none
  | .editionEqual a, ch, _ =>
    if ch == 34 then .editionOpenQuote a
    else if ch == 47 then .commentPending a (.editionEqual a)
    else if isWs ch then .editionEqualWhitespacePost a
    else .complete Option.none
  | .editionEqualWhitespacePost a, ch, _ =>
    if ch == 34 then .editionOpenQuote a
    else if ch == 47 then .commentPending a (.editionEqualWhitespacePost a)
    else if isWs ch then .editionEqualWhitespacePost a
    else .complete Option.none
  | .editionOpenQuote a, ch, _ =>
    if ch == 34 then .editionCloseQuote a
    else if ch == 92 then .editionValueEscape a
    else .editionValue a
  | .editionValue a, ch, _ =>
    if ch == 34 then .editionCloseQuote a
    else if ch == 92 then .editionValueEscape a
    else .editionValue a
  | .editionValueEscape a, _, _ => .editionValue a
  | .editionCloseQuote a, _, pos => .complete (some (a, pos))

theorem next_token_eq_step (s : State) (ch pos : Nat) :
    next_token s ch pos = .ok (step s ch pos) := by
  cases s with
  | edition a i =>
    simp only [next_token, step]
    split_ifs with h1 h2 h3 h4
    · rfl
    · rfl
    · have hi : i = 6 := by
        simp only [Bool.and_eq_true, beq_iff_eq] at h3
        exact h3.1
      subst hi; rfl
    · rfl
    · rfl
  | _ => simp only [next_token, step] <;> split_ifs <;> rfl

/-- Total mirror of `foldBytes` (see `foldBytes_eq`). -/
def foldSteps : State → Nat → List Nat → State
  | s, _, [] => s
  | s, pos, ch :: rest => foldSteps (step s ch pos) (pos + 1) rest

theorem foldBytes_eq (l : List Nat) : ∀ (s : State) (pos : Nat),
    foldBytes s pos l = .ok (foldSteps s pos l) := by
  induction l with
  | nil => intro s pos; rfl
  | cons ch rest ih =>
    intro s pos
    show next_token s ch pos >>= (fun s => foldBytes s (pos + 1) rest) = _
    rw [next_token_eq_step]
    show foldBytes (step s ch pos) (pos + 1) rest = _
    exact ih _ _

theorem foldSteps_append (u v : List Nat) : ∀ (s : State) (pos : Nat),
    foldSteps s pos (u ++ v) = foldSteps (foldSteps s pos u) (pos + u.length) v := by
  induction u with
  | nil => intro s pos; simp [foldSteps]
  | cons ch rest ih =>
    intro s pos
    simp only [List.cons_append, foldSteps, List.length_cons, List.append_eq]
    rw [ih]
    congr 1
    omega

theorem foldSteps_complete (l : List Nat) : ∀ (b : Option (Nat × Nat)) (pos : Nat),
    foldSteps (.complete b) pos l = .complete b := by
  induction l with
  | nil => intro b pos; rfl
  | cons ch rest ih => intro b pos; simp only [foldSteps, step]; exact ih _ _

/-- Shifts the stored byte position in a comment context by `d`. -/
def shiftCtx (d : Nat) : CommentContext → CommentContext
  | .none => .none
  | .editionWhitespacePost p => .editionWhitespacePost (p + d)
  | .editionEqual p => .editionEqual (p + d)
  | .editionEqualWhitespacePost p => .editionEqualWhitespacePost (p + d)

/-- Shifts every stored byte position in a state by `d`; the keyword index of
`edition` is a counter, not a position, and is unchanged. -/
def shiftSt (d : Nat) : State → State
  | .none => .none
  | .commentPending a c => .commentPending (a + d) (shiftCtx d c)
  | .commentSingleLine a c => .commentSingleLine (a + d) (shiftCtx d c)
  | .commentMultiLine a c => .commentMultiLine (a + d) (shiftCtx d c)
  | .commentMultiLineEndPending a c => .commentMultiLineEndPending (a + d) (shiftCtx d c)
  | .edition a i => .edition (a + d) i
  | .editionWhitespacePost a => .editionWhitespacePost (a + d)
  | .editionEqual a => .editionEqual (a + d)
  | .editionEqualWhitespacePost a => .editionEqualWhitespacePost (a + d)
  | .editionOpenQuote a => .editionOpenQuote (a + d)
  | .editionValueEscape a => .editionValueEscape (a + d)
  | .editionValue a => .editionValue (a + d)
  | .editionCloseQuote a => .editionCloseQuote (a + d)
  | .complete Option.none => .complete Option.none
  | .complete (some (a, b)) => .complete (some (a + d, b + d))

theorem step_shift (s : State) (ch pos d : Nat) :
    step (shiftSt d s) ch (pos + d) = shiftSt d (step s ch pos) := by
  cases s with
  | complete b => rcases b with _ | ⟨a, b⟩ <;> rfl
  | commentSingleLine a c =>
    simp only [shiftSt, step]
    split_ifs <;> cases c <;> rfl
  | commentMultiLineEndPending a c =>
    simp only [shiftSt, step]
    split_ifs <;> cases c <;> rfl
  | _ => simp only [shiftSt, step] <;> split_ifs <;> rfl

theorem foldSteps_shift (l : List Nat) : ∀ (s : State) (pos d : Nat),
    foldSteps (shiftSt d s) (pos + d) l = shiftSt d (foldSteps s pos l) := by
  induction l with
  | nil => intro s pos d; rfl
  | cons ch rest ih =>
    intro s pos d
    simp only [foldSteps]
    rw [step_shift]
    have : pos + d + 1 = (pos + 1) + d := by omega
    rw [this]
    exact ih _ _ _


/-- The start position recorded by an in-progress state: the first component of
`get_bounds` when no completed span is recorded. -/
def startAt? (s : State) : Option Nat :=
  match get_bounds s with
  | some (a, Option.none) => some a
  | _ => Option.none

/-- A saved comment context either saves no position or records exactly the
start position `a` of the surrounding scan. -/
def ctxAt (a : Nat) (c : CommentContext) : Prop :=
  c = .none ∨ c = .editionWhitespacePost a ∨ c = .editionEqual a ∨
    c = .editionEqualWhitespacePost a

/-- Well-formedness of the saved comment context relative to the state's own
start position. -/
def ctxOK : State → Prop
  | .commentPending a c => ctxAt a c
  | .commentSingleLine a c => ctxAt a c
  | .commentMultiLine a c => ctxAt a c
  | .commentMultiLineEndPending a c => ctxAt a c
  | _ => True

/-- Comment states entered from the idle state: their start position is the
byte of the opening slash. -/
def isIdleComment : State → Bool
  | .commentPending _ .none => true
  | .commentSingleLine _ .none => true
  | .commentMultiLine _ .none => true
  | .commentMultiLineEndPending _ .none => true
  | _ => false

/-- The byte at the recorded start position of an in-progress scan: a slash for
a comment entered from idle, the `e` of `edition` otherwise. -/
def startByte (s : State) : Nat := if isIdleComment s then 47 else 101

/-- Invariant carried by the one-pass scan of a prefix `w`, for a given scan
result `s`: a completed span lies inside `w` and starts at an `e`; an
in-progress scan starts at its own start byte and can be reproduced by
re-scanning `w` from the recorded start position. -/
def goodFor (w : List Nat) (s : State) : Prop :=
  (∀ a b, s = .complete (some (a, b)) → a < b ∧ b ≤ w.length ∧ w[a]? = some 101) ∧
  (∀ t, startAt? s = some t →
    t ≤ w.length ∧ ctxOK s ∧ w[t]? = some (startByte s) ∧
      shiftSt t (foldSteps .none 0 (w.drop t)) = s)

/-- The scan invariant for the prefix `w`. -/
def Good (w : List Nat) : Prop := goodFor w (foldSteps .none 0 w)

theorem goodFor_none (w : List Nat) : goodFor w .none := by
  constructor
  · intro a b h; exact State.noConfusion h
  · intro t ht; simp [startAt?, get_bounds] at ht

theorem goodFor_completeNone (w : List Nat) : goodFor w (.complete Option.none) := by
  constructor
  · intro a b h; simp at h
  · intro t ht; simp [startAt?, get_bounds] at ht

theorem goodFor_completeSome {w : List Nat} {a b : Nat}
    (h1 : a < b) (h2 : b ≤ w.length) (h3 : w[a]? = some 101) :
    goodFor w (.complete (some (a, b))) := by
  constructor
  · intro a' b' h
    simp only [State.complete.injEq, Option.some.injEq, Prod.mk.injEq] at h
    obtain ⟨rfl, rfl⟩ := h
    exact ⟨h1, h2, h3⟩
  · intro t ht; simp [startAt?, get_bounds] at ht

theorem goodFor_inProgress {w : List Nat} {s : State} {t : Nat}
    (h1 : startAt? s = some t) (h3 : t ≤ w.length) (h4 : ctxOK s)
    (h5 : w[t]? = some (startByte s))
    (h6 : shiftSt t (foldSteps .none 0 (w.drop t)) = s) :
    goodFor w s := by
  constructor
  · intro a b hab
    rw [hab] at h1
    simp [startAt?, get_bounds] at h1
  · intro t' ht'
    rw [h1] at ht'
    injection ht' with h
    subst h
    exact ⟨h3, h4, h5, h6⟩

/-- Re-scanning from the recorded start position commutes with consuming one
more byte. -/
theorem good_extend {u : List Nat} {y t : Nat} {G : State}
    (h3 : t ≤ u.length)
    (h6 : shiftSt t (foldSteps .none 0 (u.drop t)) = G) :
    shiftSt t (foldSteps .none 0 ((u ++ [y]).drop t)) = step G y u.length := by
  rw [List.drop_append_of_le_length h3, foldSteps_append]
  rw [← h6]
  have h1 : (0 : Nat) + (u.drop t).length = u.length - t := by
    simp [List.length_drop]
  rw [h1]
  have h2 : u.length = (u.length - t) + t := by omega
  conv_rhs => rw [h2]
  rw [step_shift]
  rfl

/-- An in-progress scan that stays in progress with the same start position
keeps the invariant when one more byte is consumed. -/
theorem goodFor_persist {u : List Nat} {y t : Nat} {G SN : State}
    (hstep : step G y u.length = SN)
    (hSA : startAt? SN = some t)
    (hctx : ctxOK SN)
    (hsb : startByte SN = startByte G)
    (h3 : t ≤ u.length)
    (h5 : u[t]? = some (startByte G))
    (h6 : shiftSt t (foldSteps .none 0 (u.drop t)) = G) :
    goodFor (u ++ [y]) SN := by
  have hlt : t < u.length := (List.getElem?_eq_some.mp h5).1
  apply goodFor_inProgress hSA
  · simp only [List.length_append, List.length_cons, List.length_nil]; omega
  · exact hctx
  · rw [List.getElem?_append_left hlt, hsb]; exact h5
  · rw [← hstep]; exact good_extend h3 h6

theorem good_all (w : List Nat) : Good w := by
  induction w using List.reverseRecOn with
  | nil => exact goodFor_none []
  | append_singleton u y ih =>
    unfold Good at ih ⊢
    have hfold : foldSteps .none 0 (u ++ [y]) = step (foldSteps .none 0 u) y u.length := by
      rw [foldSteps_append]
      simp [foldSteps]
    rw [hfold]
    cases hG : foldSteps .none 0 u with
    | none =>
      by_cases h1 : (y == 101) = true
      · have hy : y = 101 := by simpa using h1
        subst hy
        show goodFor (u ++ [101]) (.edition u.length 0)
        refine goodFor_inProgress (t := u.length) ?_ ?_ ?_ ?_ ?_
        · rfl
        · simp
        · trivial
        · rw [List.getElem?_concat_length]; rfl
        · rw [List.drop_append_of_le_length (le_refl u.length), List.drop_length]
          show shiftSt u.length (.edition 0 0) = .edition u.length 0
          simp [shiftSt]
      · by_cases h2 : (y == 47) = true
        · have hy : y = 47 := by simpa using h2
          subst hy
          show goodFor (u ++ [47]) (.commentPending u.length .none)
          refine goodFor_inProgress (t := u.length) ?_ ?_ ?_ ?_ ?_
          · rfl
          · simp
          · exact Or.inl rfl
          · rw [List.getElem?_concat_length]; rfl
          · rw [List.drop_append_of_le_length (le_refl u.length), List.drop_length]
            show shiftSt u.length (.commentPending 0 .none) = .commentPending u.length .none
            simp [shiftSt, shiftCtx]
        · by_cases h3 : isWs y = true
          · have hstep : step .none y u.length = .none := by
              simp only [step]; rw [if_neg h1, if_neg h2, if_pos h3]
            rw [hstep]; exact goodFor_none _
          · have hstep : step .none y u.length = .complete Option.none := by
              simp only [step]; rw [if_neg h1, if_neg h2, if_neg h3]
            rw [hstep]; exact goodFor_completeNone _
    | commentPending t c =>
      rw [hG] at ih
      obtain ⟨h3, h4, h5, h6⟩ := ih.2 t rfl
      by_cases hy1 : (y == 47) = true
      · have hstep : step (.commentPending t c) y u.length = .commentSingleLine t c := by
          simp only [step]; rw [if_pos hy1]
        rw [hstep]
        exact goodFor_persist hstep rfl h4 (by cases c <;> rfl) h3 h5 h6
      · by_cases hy2 : (y == 42) = true
        · have hstep : step (.commentPending t c) y u.length = .commentMultiLine t c := by
            simp only [step]; rw [if_neg hy1, if_pos hy2]
          rw [hstep]
          exact goodFor_persist hstep rfl h4 (by cases c <;> rfl) h3 h5 h6
        · have hstep : step (.commentPending t c) y u.length = .complete Option.none := by
            simp only [step]; rw [if_neg hy1, if_neg hy2]
          rw [hstep]; exact goodFor_completeNone _
    | commentSingleLine t c =>
      rw [hG] at ih
      obtain ⟨h3, h4, h5, h6⟩ := ih.2 t rfl
      by_cases hy1 : (y == 10) = true
      · have hstep : step (.commentSingleLine t c) y u.length = ctxIntoState c := by
          simp only [step]; rw [if_pos hy1]
        have h4' : ctxAt t c := h4
        rcases h4' with rfl | rfl | rfl | rfl
        · rw [hstep]; exact goodFor_none _
        · rw [hstep]; exact goodFor_persist hstep rfl trivial rfl h3 h5 h6
        · rw [hstep]; exact goodFor_persist hstep rfl trivial rfl h3 h5 h6
        · rw [hstep]; exact goodFor_persist hstep rfl trivial rfl h3 h5 h6
      · have hstep : step (.commentSingleLine t c) y u.length = .commentSingleLine t c := by
          simp only [step]; rw [if_neg hy1]
        rw [hstep]
        exact goodFor_persist hstep rfl h4 rfl h3 h5 h6
    | commentMultiLine t c =>
      rw [hG] at ih
      obtain ⟨h3, h4, h5, h6⟩ := ih.2 t rfl
      by_cases hy1 : (y == 42) = true
      · have hstep : step (.commentMultiLine t c) y u.length =
            .commentMultiLineEndPending t c := by
          simp only [step]; rw [if_pos hy1]
        rw [hstep]
        exact goodFor_persist hstep rfl h4 (by cases c <;> rfl) h3 h5 h6
      · have hstep : step (.commentMultiLine t c) y u.length = .commentMultiLine t c := by
          simp only [step]; rw [if_neg hy1]
        rw [hstep]
        exact goodFor_persist hstep rfl h4 rfl h3 h5 h6
    | commentMultiLineEndPending t c =>
      rw [hG] at ih
      obtain ⟨h3, h4, h5, h6⟩ := ih.2 t rfl
      by_cases hy1 : (y == 47) = true
      · have hstep : step (.commentMultiLineEndPending t c) y u.length = ctxIntoState c := by
          simp only [step]; rw [if_pos hy1]
        have h4' : ctxAt t c := h4
        rcases h4' with rfl | rfl | rfl | rfl
        · rw [hstep]; exact goodFor_none _
        · rw [hstep]; exact goodFor_persist hstep rfl trivial rfl h3 h5 h6
        · rw [hstep]; exact goodFor_persist hstep rfl trivial rfl h3 h5 h6
        · rw [hstep]; exact goodFor_persist hstep rfl trivial rfl h3 h5 h6
      · have hstep : step (.commentMultiLineEndPending t c) y u.length =
            .commentMultiLine t c := by
          simp only [step]; rw [if_neg hy1]
        rw [hstep]
        exact goodFor_persist hstep rfl h4 (by cases c <;> rfl) h3 h5 h6
    | edition t i =>
      rw [hG] at ih
      obtain ⟨h3, h4, h5, h6⟩ := ih.2 t rfl
      by_cases hk : ((i == 0 && y == 100) || (i == 1 && y == 105) || (i == 2 && y == 116)
          || (i == 3 && y == 105) || (i == 4 && y == 111) || (i == 5 && y == 110)) = true
      · have hstep : step (.edition t i) y u.length = .edition t (i + 1) := by
          simp only [step]; rw [if_pos hk]
        rw [hstep]
        exact goodFor_persist hstep rfl trivial rfl h3 h5 h6
      · by_cases h61 : (i == 6 && y == 61) = true
        · have hstep : step (.edition t i) y u.length = .editionEqual t := by
            simp only [step]; rw [if_neg hk, if_pos h61]
          rw [hstep]
          exact goodFor_persist hstep rfl trivial rfl h3 h5 h6
        · by_cases h647 : (i == 6 && y == 47) = true
          · have hstep : step (.edition t i) y u.length =
                .commentPending t (.editionWhitespacePost t) := by
              simp only [step]; rw [if_neg hk, if_neg h61, if_pos h647]
            rw [hstep]
            exact goodFor_persist hstep rfl (Or.inr (Or.inl rfl)) rfl h3 h5 h6
          · by_cases h6ws : (i == 6 && isWs y) = true
            · have hstep : step (.edition t i) y u.length = .editionWhitespacePost t := by
                simp only [step]; rw [if_neg hk, if_neg h61, if_neg h647, if_pos h6ws]
              rw [hstep]
              exact goodFor_persist hstep rfl trivial rfl h3 h5 h6
            · have hstep : step (.edition t i) y u.length = .complete Option.none := by
                simp only [step]; rw [if_neg hk, if_neg h61, if_neg h647, if_neg h6ws]
              rw [hstep]; exact goodFor_completeNone _
    | editionWhitespacePost t =>
      rw [hG] at ih
      obtain ⟨h3, h4, h5, h6⟩ := ih.2 t rfl
      by_cases hy1 : (y == 61) = true
      · have hstep : step (.editionWhitespacePost t) y u.length = .editionEqual t := by
          simp only [step]; rw [if_pos hy1]
        rw [hstep]
        exact goodFor_persist hstep rfl trivial rfl h3 h5 h6
      · by_cases hy2 : (y == 47) = true
        · have hstep : step (.editionWhitespacePost t) y u.length =
              .commentPending t (.editionWhitespacePost t) := by
            simp only [step]; rw [if_neg hy1, if_pos hy2]
          rw [hstep]
          exact goodFor_persist hstep rfl (Or.inr (Or.inl rfl)) rfl h3 h5 h6
        · by_cases hy3 : isWs y = true
          · have hstep : step (.editionWhitespacePost t) y u.length =
                .editionWhitespacePost t := by
              simp only [step]; rw [if_neg hy1, if_neg hy2, if_pos hy3]
            rw [hstep]
            exact goodFor_persist hstep rfl trivial rfl h3 h5 h6
          · have hstep : step (.editionWhitespacePost t) y u.length = .complete Option.none := by
              simp only [step]; rw [if_neg hy1, if_neg hy2, if_neg hy3]
            rw [hstep]; exact goodFor_completeNone _
    | editionEqual t =>
      rw [hG] at ih
      obtain ⟨h3, h4, h5, h6⟩ := ih.2 t rfl
      by_cases hy1 : (y == 34) = true
      · have hstep : step (.editionEqual t) y u.length = .editionOpenQuote t := by
          simp only [step]; rw [if_pos hy1]
        rw [hstep]
        exact goodFor_persist hstep rfl trivial rfl h3 h5 h6
      · by_cases hy2 : (y == 47) = true
        · have hstep : step (.editionEqual t) y u.length =
              .commentPending t (.editionEqual t) := by
            simp only [step]; rw [if_neg hy1, if_pos hy2]
          rw [hstep]
          exact goodFor_persist hstep rfl (Or.inr (Or.inr (Or.inl rfl))) rfl h3 h5 h6
        · by_cases hy3 : isWs y = true
          · have hstep : step (.editionEqual t) y u.length =
                .editionEqualWhitespacePost t := by
              simp only [step]; rw [if_neg hy1, if_neg hy2, if_pos hy3]
            rw [hstep]
            exact goodFor_persist hstep rfl trivial rfl h3 h5 h6
          · have hstep : step (.editionEqual t) y u.length = .complete Option.none := by
              simp only [step]; rw [if_neg hy1, if_neg hy2, if_neg hy3]
            rw [hstep]; exact goodFor_completeNone _
    | editionEqualWhitespacePost t =>
      rw [hG] at ih
      obtain ⟨h3, h4, h5, h6⟩ := ih.2 t rfl
      by_cases hy1 : (y == 34) = true
      · have hstep : step (.editionEqualWhitespacePost t) y u.length = .editionOpenQuote t := by
          simp only [step]; rw [if_pos hy1]
        rw [hstep]
        exact goodFor_persist hstep rfl trivial rfl h3 h5 h6
      · by_cases hy2 : (y == 47) = true
        · have hstep : step (.editionEqualWhitespacePost t) y u.length =
              .commentPending t (.editionEqualWhitespacePost t) := by
            simp only [step]; rw [if_neg hy1, if_pos hy2]
          rw [hstep]
          exact goodFor_persist hstep rfl (Or.inr (Or.inr (Or.inr rfl))) rfl h3 h5 h6
        · by_cases hy3 : isWs y = true
          · have hstep : step (.editionEqualWhitespacePost t) y u.length =
                .editionEqualWhitespacePost t := by
              simp only [step]; rw [if_neg hy1, if_neg hy2, if_pos hy3]
            rw [hstep]
            exact goodFor_persist hstep rfl trivial rfl h3 h5 h6
          · have hstep : step (.editionEqualWhitespacePost t) y u.length =
                .complete Option.none := by
              simp only [step]; rw [if_neg hy1, if_neg hy2, if_neg hy3]
            rw [hstep]; exact goodFor_completeNone _
    | editionOpenQuote t =>
      rw [hG] at ih
      obtain ⟨h3, h4, h5, h6⟩ := ih.2 t rfl
      by_cases hy1 : (y == 34) = true
      · have hstep : step (.editionOpenQuote t) y u.length = .editionCloseQuote t := by
          simp only [step]; rw [if_pos hy1]
        rw [hstep]
        exact goodFor_persist hstep rfl trivial rfl h3 h5 h6
      · by_cases hy2 : (y == 92) = true
        · have hstep : step (.editionOpenQuote t) y u.length = .editionValueEscape t := by
            simp only [step]; rw [if_neg hy1, if_pos hy2]
          rw [hstep]
          exact goodFor_persist hstep rfl trivial rfl h3 h5 h6
        · have hstep : step (.editionOpenQuote t) y u.length = .editionValue t := by
            simp only [step]; rw [if_neg hy1, if_neg hy2]
          rw [hstep]
          exact goodFor_persist hstep rfl trivial rfl h3 h5 h6
    | editionValue t =>
      rw [hG] at ih
      obtain ⟨h3, h4, h5, h6⟩ := ih.2 t rfl
      by_cases hy1 : (y == 34) = true
      · have hstep : step (.editionValue t) y u.length = .editionCloseQuote t := by
          simp only [step]; rw [if_pos hy1]
        rw [hstep]
        exact goodFor_persist hstep rfl trivial rfl h3 h5 h6
      · by_cases hy2 : (y == 92) = true
        · have hstep : step (.editionValue t) y u.length = .editionValueEscape t := by
            simp only [step]; rw [if_neg hy1, if_pos hy2]
          rw [hstep]
          exact goodFor_persist hstep rfl trivial rfl h3 h5 h6
        · have hstep : step (.editionValue t) y u.length = .editionValue t := by
            simp only [step]; rw [if_neg hy1, if_neg hy2]
          rw [hstep]
          exact goodFor_persist hstep rfl trivial rfl h3 h5 h6
    | editionValueEscape t =>
      rw [hG] at ih
      obtain ⟨h3, h4, h5, h6⟩ := ih.2 t rfl
      have hstep : step (.editionValueEscape t) y u.length = .editionValue t := rfl
      rw [hstep]
      exact goodFor_persist hstep rfl trivial rfl h3 h5 h6
    | editionCloseQuote t =>
      rw [hG] at ih
      obtain ⟨h3, h4, h5, h6⟩ := ih.2 t rfl
      have hlt : t < u.length := (List.getElem?_eq_some.mp h5).1
      show goodFor (u ++ [y]) (.complete (some (t, u.length)))
      apply goodFor_completeSome hlt (by simp)
      rw [List.getElem?_append_left hlt]
      exact h5
    | complete b =>
      rcases b with _ | ⟨a, b⟩
      · exact goodFor_completeNone _
      · rw [hG] at ih
        obtain ⟨h1, h2, h3⟩ := ih.1 a b rfl
        show goodFor (u ++ [y]) (.complete (some (a, b)))
        apply goodFor_completeSome h1 (by simp; omega)
        rw [List.getElem?_append_left (Nat.lt_of_lt_of_le h1 h2)]
        exact h3


theorem startAt?_shift (s : State) (d : Nat) :
    startAt? (shiftSt d s) = (startAt? s).map (· + d) := by
  cases s with
  | complete b => rcases b with _ | ⟨a, b⟩ <;> rfl
  | _ => rfl

theorem shiftSt_shiftSt (s : State) (d e : Nat) :
    shiftSt d (shiftSt e s) = shiftSt (e + d) s := by
  cases s with
  | complete b => rcases b with _ | ⟨a, b⟩ <;> simp [shiftSt, Nat.add_assoc]
  | commentPending a c => cases c <;> simp [shiftSt, shiftCtx, Nat.add_assoc]
  | commentSingleLine a c => cases c <;> simp [shiftSt, shiftCtx, Nat.add_assoc]
  | commentMultiLine a c => cases c <;> simp [shiftSt, shiftCtx, Nat.add_assoc]
  | commentMultiLineEndPending a c => cases c <;> simp [shiftSt, shiftCtx, Nat.add_assoc]
  | _ => simp [shiftSt, Nat.add_assoc]

theorem get_bounds_eq_completeSome {s : State} {a b : Nat}
    (h : get_bounds s = some (a, some b)) : s = .complete (some (a, b)) := by
  cases s with
  | complete p =>
    rcases p with _ | ⟨x, y⟩
    · simp [get_bounds] at h
    · simp only [get_bounds, Option.some.injEq, Prod.mk.injEq] at h
      obtain ⟨rfl, rfl⟩ := h
      rfl
  | _ => simp [get_bounds] at h

theorem get_bounds_inProgress {s : State} {a : Nat}
    (h : get_bounds s = some (a, Option.none)) : startAt? s = some a := by
  simp [startAt?, h]

theorem get_bounds_none_cases {s : State} (h : get_bounds s = Option.none) :
    s = .none ∨ s = .complete Option.none := by
  cases s with
  | none => exact Or.inl rfl
  | complete p =>
    rcases p with _ | ⟨x, y⟩
    · exact Or.inr rfl
    · simp [get_bounds] at h
  | _ => simp [get_bounds] at h

theorem resetState_of_inProgress {s : State} {a : Nat} (h : startAt? s = some a) :
    resetState s = .none := by
  cases s with
  | none => simp [startAt?, get_bounds] at h
  | complete p => rcases p with _ | ⟨x, y⟩ <;> simp [startAt?, get_bounds] at h
  | _ => rfl

theorem resetState_completeNone : resetState (.complete Option.none) = .complete Option.none := rfl

theorem resetState_completeSome (p : Nat × Nat) :
    resetState (.complete (some p)) = .complete Option.none := rfl

/-- Specification-level result of the patcher: outcome and output bytes,
computed from the one-pass scan of the whole file. On a completed match the
span `[a, b)` is replaced; when the scan is still in progress at end of file
the bytes from the scan's start position on are dropped (the implementation
retains them in its line buffer and never flushes them at end of file);
otherwise the file is copied unchanged. -/
def specOut (w : List Nat) : Outcome × List Nat :=
  match foldSteps .none 0 w with
  | .complete (some (a, b)) => (.replaced, w.take a ++ replacementBytes ++ w.drop b)
  | s =>
    (.untouched, match startAt? s with
      | some t => w.take t
      | Option.none => w)

theorem specOut_completeSome {w : List Nat} {a b : Nat}
    (h : foldSteps .none 0 w = .complete (some (a, b))) :
    specOut w = (.replaced, w.take a ++ replacementBytes ++ w.drop b) := by
  simp [specOut, h]

theorem specOut_inProgress {w : List Nat} {t : Nat}
    (h1 : startAt? (foldSteps .none 0 w) = some t) :
    specOut w = (.untouched, w.take t) := by
  unfold specOut
  cases hf : foldSteps .none 0 w with
  | complete p =>
    rw [hf] at h1
    rcases p with _ | q <;> simp [startAt?, get_bounds] at h1
  | none => rw [hf] at h1; simp [startAt?, get_bounds] at h1
  | _ =>
    rw [hf] at h1
    simp [h1]

theorem specOut_copy {w : List Nat}
    (h : foldSteps .none 0 w = .none ∨ foldSteps .none 0 w = .complete Option.none) :
    specOut w = (.untouched, w) := by
  rcases h with h | h <;> simp [specOut, h, startAt?, get_bounds]

theorem patchLoop_cons (state : State) (buf chunk : List Nat) (rest : List (List Nat))
    (out : List Nat) (oc : Outcome) :
    patchLoop state buf (chunk :: rest) out oc =
      match get_bounds (foldSteps state 0 (buf ++ chunk)) with
      | some (a, some b) =>
        patchLoop (resetState (foldSteps state 0 (buf ++ chunk))) [] rest
          (out ++ (buf ++ chunk).take a ++ replacementBytes ++ (buf ++ chunk).drop b) .replaced
      | some (a, Option.none) =>
        patchLoop (resetState (foldSteps state 0 (buf ++ chunk))) ((buf ++ chunk).drop a) rest
          (out ++ (buf ++ chunk).take a) oc
      | Option.none =>
        patchLoop (resetState (foldSteps state 0 (buf ++ chunk))) [] rest
          (out ++ (buf ++ chunk)) oc := by
  simp only [patchLoop]
  rw [foldBytes_eq]
  rfl

theorem patchLoop_complete (chks : List (List Nat)) : ∀ (out : List Nat) (oc : Outcome),
    patchLoop (.complete Option.none) [] chks out oc = .ok (oc, out ++ chks.flatten) := by
  induction chks with
  | nil => intro out oc; simp [patchLoop]
  | cons chunk rest ih =>
    intro out oc
    rw [patchLoop_cons]
    rw [foldSteps_complete]
    show patchLoop (.complete Option.none) [] rest (out ++ ([] ++ chunk)) oc = _
    rw [ih]
    simp

theorem patchLoop_main (chks : List (List Nat)) : ∀ (flushed buf out0 : List Nat),
    (foldSteps .none 0 (flushed ++ buf) = .none ∧ buf = [] ∨
      startAt? (foldSteps .none 0 buf) = some 0 ∧
        shiftSt flushed.length (foldSteps .none 0 buf) = foldSteps .none 0 (flushed ++ buf)) →
    patchLoop .none buf chks (out0 ++ flushed) .untouched =
      .ok ((specOut (flushed ++ buf ++ chks.flatten)).1,
        out0 ++ (specOut (flushed ++ buf ++ chks.flatten)).2) := by
  induction chks with
  | nil =>
    intro flushed buf out0 hbuf
    rcases hbuf with ⟨hg, rfl⟩ | ⟨h0, hsh⟩
    · have hg' : foldSteps .none 0 flushed = .none := by simpa using hg
      have hW : flushed ++ ([] : List Nat) ++ ([] : List (List Nat)).flatten = flushed := by simp
      rw [hW, specOut_copy (Or.inl hg')]
      rfl
    · have hsA : startAt? (foldSteps .none 0 (flushed ++ buf)) = some flushed.length := by
        rw [← hsh, startAt?_shift, h0]
        simp
      have hW : flushed ++ buf ++ ([] : List (List Nat)).flatten = flushed ++ buf := by simp
      rw [hW, specOut_inProgress hsA]
      show Except.ok (Outcome.untouched, out0 ++ flushed) = _
      rw [List.take_left]
  | cons chunk rest ih =>
    intro flushed buf out0 hbuf
    have hrel : foldSteps .none 0 (flushed ++ (buf ++ chunk)) =
        shiftSt flushed.length (foldSteps .none 0 (buf ++ chunk)) := by
      rcases hbuf with ⟨hg, rfl⟩ | ⟨h0, hsh⟩
      · have hg' : foldSteps .none 0 flushed = .none := by simpa using hg
        simp only [List.nil_append]
        rw [foldSteps_append, hg']
        have h2 := foldSteps_shift chunk .none 0 flushed.length
        simpa [shiftSt] using h2
      · rw [← List.append_assoc, foldSteps_append, ← hsh]
        have h2 := foldSteps_shift chunk (foldSteps .none 0 buf) buf.length flushed.length
        rw [show (0 : Nat) + (flushed ++ buf).length = buf.length + flushed.length by
          simp [Nat.add_comm]]
        rw [h2]
        congr 1
        rw [foldSteps_append]
        simp
    have hgood := good_all (buf ++ chunk)
    unfold Good at hgood
    have hWeq : flushed ++ buf ++ (chunk :: rest).flatten =
        flushed ++ (buf ++ chunk) ++ rest.flatten := by
      simp [List.append_assoc]
    rw [patchLoop_cons, hWeq]
    rcases hb : get_bounds (foldSteps .none 0 (buf ++ chunk)) with _ | ⟨a, _ | b⟩
    · -- no pending scan: the whole line was flushed
      rcases get_bounds_none_cases hb with hs' | hs'
      · rw [hs']
        show patchLoop .none [] rest ((out0 ++ flushed) ++ (buf ++ chunk)) .untouched = _
        have happ : (out0 ++ flushed) ++ (buf ++ chunk) = out0 ++ (flushed ++ (buf ++ chunk)) := by
          simp [List.append_assoc]
        rw [happ]
        have hb' : foldSteps .none 0 (flushed ++ (buf ++ chunk) ++ []) = .none ∧
            ([] : List Nat) = [] := by
          constructor
          · rw [List.append_nil, hrel, hs']
            rfl
          · rfl
        rw [ih (flushed ++ (buf ++ chunk)) [] out0 (Or.inl hb')]
        simp
      · rw [hs']
        show patchLoop (.complete Option.none) [] rest ((out0 ++ flushed) ++ (buf ++ chunk))
          .untouched = _
        rw [patchLoop_complete]
        have hfW : foldSteps .none 0 (flushed ++ (buf ++ chunk) ++ rest.flatten) =
            .complete Option.none := by
          rw [foldSteps_append, hrel, hs']
          show foldSteps (.complete Option.none) _ _ = _
          rw [foldSteps_complete]
        rw [specOut_copy (Or.inr hfW)]
        simp [List.append_assoc]
    · -- a pending scan: flush up to its start position and retain the rest
      have hsA : startAt? (foldSteps .none 0 (buf ++ chunk)) = some a := get_bounds_inProgress hb
      obtain ⟨haL, -, -, hre⟩ := hgood.2 a hsA
      rw [resetState_of_inProgress hsA]
      show patchLoop State.none ((buf ++ chunk).drop a) rest
        ((out0 ++ flushed) ++ (buf ++ chunk).take a) Outcome.untouched = _
      have happ : (out0 ++ flushed) ++ (buf ++ chunk).take a =
          out0 ++ (flushed ++ (buf ++ chunk).take a) := by
        simp [List.append_assoc]
      rw [happ]
      have h0' : startAt? (foldSteps .none 0 ((buf ++ chunk).drop a)) = some 0 := by
        have hss := startAt?_shift (foldSteps .none 0 ((buf ++ chunk).drop a)) a
        rw [hre, hsA] at hss
        cases ho : startAt? (foldSteps .none 0 ((buf ++ chunk).drop a)) with
        | none => rw [ho] at hss; simp at hss
        | some t0 =>
          rw [ho] at hss
          simp at hss
          have ht0 : t0 = 0 := by omega
          rw [ht0]
      have hFb : flushed ++ (buf ++ chunk).take a ++ (buf ++ chunk).drop a =
          flushed ++ (buf ++ chunk) := by
        rw [List.append_assoc, List.take_append_drop]
      have hsh' : shiftSt (flushed ++ (buf ++ chunk).take a).length
            (foldSteps .none 0 ((buf ++ chunk).drop a)) =
          foldSteps .none 0 (flushed ++ (buf ++ chunk).take a ++ (buf ++ chunk).drop a) := by
        rw [hFb, hrel, ← hre, shiftSt_shiftSt]
        congr 1
        simp [List.length_take_of_le haL]
        omega
      rw [ih (flushed ++ (buf ++ chunk).take a) ((buf ++ chunk).drop a) out0
        (Or.inr ⟨h0', hsh'⟩)]
      have hW2 : flushed ++ (buf ++ chunk).take a ++ (buf ++ chunk).drop a ++ rest.flatten =
          flushed ++ (buf ++ chunk) ++ rest.flatten := by
        rw [hFb]
      rw [hW2]
    · -- a completed match: splice in the replacement and copy the remainder
      have hs' : foldSteps .none 0 (buf ++ chunk) = .complete (some (a, b)) :=
        get_bounds_eq_completeSome hb
      rw [hs']
      obtain ⟨hab, hbl, -⟩ := by
        rw [hs'] at hgood
        exact hgood.1 a b rfl
      show patchLoop (.complete Option.none) [] rest
        ((out0 ++ flushed) ++ (buf ++ chunk).take a ++ replacementBytes ++
          (buf ++ chunk).drop b) .replaced = _
      rw [patchLoop_complete]
      have hfW : foldSteps .none 0 (flushed ++ (buf ++ chunk) ++ rest.flatten) =
          .complete (some (a + flushed.length, b + flushed.length)) := by
        rw [foldSteps_append, hrel, hs']
        show foldSteps (.complete (some (a + flushed.length, b + flushed.length))) _ _ = _
        rw [foldSteps_complete]
      rw [specOut_completeSome hfW]
      have htake : (flushed ++ (buf ++ chunk) ++ rest.flatten).take (a + flushed.length) =
          flushed ++ (buf ++ chunk).take a := by
        rw [List.append_assoc, show a + flushed.length = flushed.length + a by omega,
          List.take_append, List.take_append_of_le_length (Nat.le_of_lt (Nat.lt_of_lt_of_le hab hbl))]
      have hdrop : (flushed ++ (buf ++ chunk) ++ rest.flatten).drop (b + flushed.length) =
          (buf ++ chunk).drop b ++ rest.flatten := by
        rw [List.append_assoc, show b + flushed.length = flushed.length + b by omega,
          List.drop_append, List.drop_append_of_le_length hbl]
      rw [htake, hdrop]
      simp [List.append_assoc]

theorem chunks_ne_nil (c : Nat) (r : List Nat) : chunks (c :: r) ≠ [] := by
  simp only [chunks]
  split_ifs
  · simp
  · cases chunks r <;> simp

theorem chunks_flatten (l : List Nat) : (chunks l).flatten = l := by
  induction l with
  | nil => rfl
  | cons c r ih =>
    simp only [chunks]
    split_ifs with h
    · have : c = 10 := by simpa using h
      subst this
      simp [ih]
    · cases hc : chunks r with
      | nil =>
        cases r with
        | nil => simp
        | cons x xs => exact absurd hc (chunks_ne_nil x xs)
      | cons q qs =>
        rw [hc] at ih
        simp only [List.flatten]
        rw [show (c :: q) ++ qs.flatten = c :: (q ++ qs.flatten) by simp]
        rw [show q ++ qs.flatten = (q :: qs).flatten by simp [List.flatten]]
        rw [ih]

/-- The streaming, line-buffered patcher computes exactly the one-pass
specification `specOut` on every input, and in particular never fails. -/
theorem patch_edition_eq_spec (input : List Nat) :
    patch_edition input = .ok (specOut input) := by
  unfold patch_edition
  have h := patchLoop_main (chunks input) [] [] []
    (Or.inl ⟨rfl, rfl⟩)
  simp only [List.nil_append, chunks_flatten] at h
  rw [h]


/-- Bytes that close a multi-line comment when consumed from the
comment-multi-line state, the closing slash being the very last byte. The
grammar mirrors the transitions of `next_token`: a star followed by a slash
closes; a star followed by anything else returns to the comment body. -/
inductive MLTail : List Nat → Prop
  | close : MLTail [42, 47]
  | other {b : Nat} {r : List Nat} : b ≠ 42 → MLTail r → MLTail (b :: r)
  | star {b : Nat} {r : List Nat} : b ≠ 47 → MLTail r → MLTail (42 :: b :: r)

theorem foldSteps_mlTail {l : List Nat} (h : MLTail l) :
    ∀ (a : Nat) (c : CommentContext) (pos : Nat),
      foldSteps (.commentMultiLine a c) pos l = ctxIntoState c := by
  induction h with
  | close => intro a c pos; rfl
  | @other b r hb _ ih =>
    intro a c pos
    simp only [foldSteps]
    have hs : step (.commentMultiLine a c) b pos = .commentMultiLine a c := by
      simp only [step]
      rw [if_neg (by simpa using hb)]
    rw [hs]
    exact ih a c (pos + 1)
  | @star b r hb _ ih =>
    intro a c pos
    simp only [foldSteps]
    have hs1 : step (.commentMultiLine a c) 42 pos = .commentMultiLineEndPending a c := rfl
    have hs2 : step (.commentMultiLineEndPending a c) b (pos + 1) = .commentMultiLine a c := by
      simp only [step]
      rw [if_neg (by simpa using hb)]
    rw [hs1, hs2]
    exact ih a c (pos + 1 + 1)

theorem foldSteps_singleLine_body {body : List Nat} (h : ∀ x ∈ body, x ≠ 10) :
    ∀ (a : Nat) (c : CommentContext) (pos : Nat),
      foldSteps (.commentSingleLine a c) pos body = .commentSingleLine a c := by
  induction body with
  | nil => intro a c pos; rfl
  | cons b r ih =>
    intro a c pos
    simp only [foldSteps]
    have hs : step (.commentSingleLine a c) b pos = .commentSingleLine a c := by
      simp only [step]
      rw [if_neg (by simpa using h b (List.mem_cons_self b r))]
    rw [hs]
    exact ih (fun x hx => h x (List.mem_cons_of_mem b hx)) a c (pos + 1)

/-- Leading trivia before a top-level declaration: whitespace, single-line
comments and terminated multi-line comments, exactly as consumed by the lexer
from the idle state. -/
inductive TopTrivia : List Nat → Prop
  | nil : TopTrivia []
  | ws {b : Nat} {r : List Nat} : isWs b = true → TopTrivia r → TopTrivia (b :: r)
  | line {body r : List Nat} : (∀ x ∈ body, x ≠ 10) → TopTrivia r →
      TopTrivia (47 :: 47 :: (body ++ 10 :: r))
  | block {tail r : List Nat} : MLTail tail → TopTrivia r →
      TopTrivia (47 :: 42 :: (tail ++ r))

theorem foldSteps_trivia {p : List Nat} (h : TopTrivia p) :
    ∀ pos, foldSteps .none pos p = .none := by
  induction h with
  | nil => intro pos; rfl
  | @ws b r hb _ ih =>
    intro pos
    simp only [foldSteps]
    have hs : step .none b pos = .none := by
      have hb' : (((b = 32 ∨ b = 9) ∨ b = 10) ∨ b = 12) ∨ b = 13 := by
        simpa [isWs] using hb
      rcases hb' with (((rfl | rfl) | rfl) | rfl) | rfl <;> rfl
    rw [hs]
    exact ih (pos + 1)
  | @line body r hbody _ ih =>
    intro pos
    simp only [foldSteps]
    have hs1 : step .none 47 pos = .commentPending pos .none := rfl
    have hs2 : step (.commentPending pos .none) 47 (pos + 1) = .commentSingleLine pos .none := rfl
    rw [hs1, hs2, foldSteps_append, foldSteps_singleLine_body hbody]
    simp only [foldSteps]
    have hs3 : ∀ q, step (.commentSingleLine pos .none) 10 q = .none := fun q => rfl
    rw [hs3]
    exact ih _
  | @block tail r htail _ ih =>
    intro pos
    simp only [foldSteps]
    have hs1 : step .none 47 pos = .commentPending pos .none := rfl
    have hs2 : step (.commentPending pos .none) 42 (pos + 1) = .commentMultiLine pos .none := rfl
    rw [hs1, hs2, foldSteps_append, foldSteps_mlTail htail]
    exact ih _

-- Sanity checks for the one-pass specification itself.
example : specOut (strBytes "/* edition") = (.untouched, []) := by decide

example : specScan (strBytes "edition = \"2023\";\n") = some (0, 16) := by decide

/-- C1: for every input file containing a matching top-level edition
declaration (the one-pass reference scan completes with span `[a, b)`),
`patch_edition` returns `Replaced` and the output is exactly the input with
the span `[a, b)` replaced by the literal bytes `syntax = "proto3"`; every
byte outside the span — and in particular everything after the first
completed match — is copied unchanged, so no second declaration is ever
matched. -/
theorem specScan_eq_some {input : List Nat} {a b : Nat}
    (h : specScan input = some (a, b)) :
    foldSteps .none 0 input = .complete (some (a, b)) := by
  unfold specScan at h
  rw [foldBytes_eq] at h
  cases hs : foldSteps .none 0 input with
  | complete p =>
    rcases p with _ | ⟨x, y⟩ <;> rw [hs] at h
    · simp at h
    · simp only [Option.some.injEq] at h
      rw [← h]
  | none => rw [hs] at h; simp at h
  | commentPending x c => rw [hs] at h; simp at h
  | commentSingleLine x c => rw [hs] at h; simp at h
  | commentMultiLine x c => rw [hs] at h; simp at h
  | commentMultiLineEndPending x c => rw [hs] at h; simp at h
  | edition x i => rw [hs] at h; simp at h
  | editionWhitespacePost x => rw [hs] at h; simp at h
  | editionEqual x => rw [hs] at h; simp at h
  | editionEqualWhitespacePost x => rw [hs] at h; simp at h
  | editionOpenQuote x => rw [hs] at h; simp at h
  | editionValueEscape x => rw [hs] at h; simp at h
  | editionValue x => rw [hs] at h; simp at h
  | editionCloseQuote x => rw [hs] at h; simp at h

theorem C1_single_substitution (input : List Nat) (a b : Nat)
    (h : specScan input = some (a, b)) :
    patch_edition input = .ok (.replaced, input.take a ++ replacementBytes ++ input.drop b) := by
  rw [patch_edition_eq_spec, specOut_completeSome (specScan_eq_some h)]

/-- Witness for C1 at a concrete input. -/
theorem C1_single_substitution_witness :
    patch_edition (strBytes "edition = \"2023\";\n") =
      .ok (.replaced, (strBytes "edition = \"2023\";\n").take 0 ++ replacementBytes ++
        (strBytes "edition = \"2023\";\n").drop 16) :=
  C1_single_substitution (strBytes "edition = \"2023\";\n") 0 16 (by decide)

/-- C2 (code bug): on the input `/* edition` — whose only edition-like text
lies inside an (unterminated) comment — the patcher returns `Untouched` but
writes zero bytes instead of the input: the bytes retained in the line buffer
are never flushed when end of file is reached mid-scan. -/
theorem C2_truncation_bug :
    patch_edition (strBytes "/* edition") = .ok (.untouched, []) ∧
      strBytes "/* edition" ≠ [] := by
  constructor
  · decide
  · decide

/-- C3 counterexample: in `/*c*/edition = "2023";` the comment immediately
precedes the keyword on the same scan, yet the replaced span starts at the
`e` of `edition`, not at the first byte of the comment: the comment survives
in the output, which would be impossible had the span started at byte 0. -/
theorem C3_counterexample :
    patch_edition (strBytes "/*c*/edition = \"2023\";\n") =
      .ok (.replaced, strBytes "/*c*/syntax = \"proto3\";\n") ∧
      strBytes "/*c*/syntax = \"proto3\";\n" ≠ replacementBytes ++ strBytes ";\n" := by
  constructor
  · decide
  · decide

/-- C3 (amended): on every completed match the replaced span starts at the
first byte of the `edition` keyword itself — never at a preceding comment —
and every byte outside the span appears unchanged in the output. -/
theorem C3_amended_span_starts_at_keyword (input : List Nat) (a b : Nat)
    (h : specScan input = some (a, b)) :
    input[a]? = some 101 ∧
      patch_edition input = .ok (.replaced,
        input.take a ++ replacementBytes ++ input.drop b) := by
  have hf := specScan_eq_some h
  constructor
  · have hg := good_all input
    unfold Good at hg
    rw [hf] at hg
    exact (hg.1 a b rfl).2.2
  · rw [patch_edition_eq_spec, specOut_completeSome hf]

/-- Witness for the amended C3: in `/*c*/edition = "2023";` the matched span
starts at byte 5, the `e` of `edition`, right after the comment. -/
theorem C3_amended_witness :
    (strBytes "/*c*/edition = \"2023\";\n")[5]? = some 101 ∧
      patch_edition (strBytes "/*c*/edition = \"2023\";\n") =
        .ok (.replaced, (strBytes "/*c*/edition = \"2023\";\n").take 5 ++ replacementBytes ++
          (strBytes "/*c*/edition = \"2023\";\n").drop 21) :=
  C3_amended_span_starts_at_keyword (strBytes "/*c*/edition = \"2023\";\n") 5 21 (by decide)

/-- C6: the internal-consistency error is unreachable: every conversion of a
lexer state into a saved comment context performed by `next_token` succeeds,
and `patch_edition` always returns `ok` (in this pure model the read and
write failures cannot occur, so no error at all is possible). -/
theorem C6_invalid_state_unreachable :
    (∀ (s : State) (ch pos : Nat), ∃ s2, next_token s ch pos = .ok s2) ∧
    (∀ input : List Nat, ∃ r, patch_edition input = .ok r) :=
  ⟨fun s ch pos => ⟨step s ch pos, next_token_eq_step s ch pos⟩,
    fun input => ⟨specOut input, patch_edition_eq_spec input⟩⟩

/-- C7: a file whose top level starts — after whitespace and comments — with
the byte `s` of an existing `syntax` declaration is returned `Untouched` with
byte-identical output: the keyword scan recognizes only `edition`, so the
first `s` drives the lexer to its terminal state and the whole file is copied
verbatim. -/
theorem C7_syntax_file_untouched (p r : List Nat) (h : TopTrivia p) :
    patch_edition (p ++ 115 :: r) = .ok (.untouched, p ++ 115 :: r) := by
  have hf : foldSteps .none 0 (p ++ 115 :: r) = .complete Option.none := by
    rw [foldSteps_append, foldSteps_trivia h]
    simp only [foldSteps]
    have hs : ∀ q, step .none 115 q = .complete Option.none := fun q => rfl
    rw [hs, foldSteps_complete]
  rw [patch_edition_eq_spec, specOut_copy (Or.inr hf)]

/-- Witness for C7: a line comment followed by `syntax = "proto3";`. -/
theorem C7_syntax_file_untouched_witness :
    patch_edition ([47, 47, 32, 99, 10] ++ 115 :: strBytes "yntax = \"proto3\";\n") =
      .ok (.untouched, [47, 47, 32, 99, 10] ++ 115 :: strBytes "yntax = \"proto3\";\n") :=
  C7_syntax_file_untouched [47, 47, 32, 99, 10] (strBytes "yntax = \"proto3\";\n")
    (@TopTrivia.line [32, 99] [] (by decide) TopTrivia.nil)

end Patcher

namespace Modgen

/-- Error type (src/modgen.rs, `enum Error`); the `io::Error` payloads are
dropped, paths are kept. Destination paths are segment lists, source files
are named by strings. -/
inductive Err where
  | readSourceDir
  | fileName (path : String)
  | mkModDir (path : List String)
  | mkModFile (path : List String)
  | writeModFile (path : List String)
  | readSourceFile (path : String)
  deriving DecidableEq, Repr

mutual
/-- Namespace tree node (src/modgen.rs, `struct Node`): an optional generated
source file attached at this level and a map from child segment name to child
node. The Rust `HashMap` is modelled as an association list with unique keys;
its order is irrelevant (the map is unordered, and compilation sorts names). -/
inductive Node where
  | mk (path : Option String) (children : Children)
  deriving DecidableEq
/-- The children map of a node, as an association list. -/
inductive Children where
  | nil
  | cons (name : String) (node : Node) (rest : Children)
  deriving DecidableEq
end

def Node.path : Node → Option String
  | .mk p _ => p

def Node.children : Node → Children
  | .mk _ c => c

/-- `HashMap::remove`: take the entry for `k` out of the map, if present.
A map never holds two entries with the same key, so removing every matching
entry coincides with removing the one entry. -/
def Children.removeGet (k : String) : Children → Option Node × Children
  | .nil => (Option.none, .nil)
  | .cons n v r =>
    if n = k then (some v, (removeGet k r).2)
    else ((removeGet k r).1, .cons n v (removeGet k r).2)

/-- `HashMap::insert` for a key not currently present (the caller always
removes first); position in the list is irrelevant. -/
def Children.insertEnd (k : String) (v : Node) : Children → Children
  | .nil => .cons k v .nil
  | .cons n w r => .cons n w (insertEnd k v r)

def Children.lookup (k : String) : Children → Option Node
  | .nil => Option.none
  | .cons n v r => if n = k then some v else lookup k r

def Children.names : Children → List String
  | .nil => []
  | .cons n _ r => n :: names r

/-- `HashMap::is_empty`. -/
def Children.isEmptyC : Children → Bool
  | .nil => true
  | .cons _ _ _ => false

/-- (src/modgen.rs, `Node::push`.) The Rust code stores the namespace segments
leaf-first in a vector and pops from the back; here `package` is the same
sequence in pop order (root first). `remove` followed by `insert` becomes
in-place removal plus append. -/
def Node.push : Node → String → List String → Node
  | .mk _ cs, p, [] => .mk (some p) cs
  | .mk op cs, p, part :: rest =>
    if part = "_" then Node.push (.mk op cs) p rest
    else
      let q := cs.removeGet part
      .mk op (q.2.insertEnd part
        (Node.push (q.1.getD (.mk Option.none .nil)) p rest))

/-- Splits a file name at every dot except a leading dot, mirroring the
`extension`/`set_extension` loop of `Tree::push`: Rust `Path::extension`
returns `None` exactly when there is no dot or the only dot leads the name,
and each loop iteration peels the segment after the last remaining dot. -/
def splitDots : List Char → List (List Char)
  | [] => [[]]
  | c :: r =>
    if c = '.' then [] :: splitDots r
    else match splitDots r with
      | [] => [[c]]
      | s :: ss => (c :: s) :: ss

def parseSegments : List Char → List (List Char)
  | [] => [[]]
  | c :: r =>
    if c = '.' then
      match splitDots r with
      | [] => [['.']]
      | s :: ss => ('.' :: s) :: ss
    else splitDots (c :: r)

/-- The dotted-name segments of a generated file name, in the order `Node.push`
consumes them (root first): `with_extension("")` drops the final extension
(the last segment, when the name has more than one), and the remaining
segments are the namespace path. -/
def fileParts (fname : String) : List String :=
  let segs := parseSegments fname.data
  let kept := if 2 ≤ segs.length then segs.dropLast else segs
  kept.map (fun l => String.mk l)

/-- The final path component, mirroring `Path::file_name` (the rarely relevant
`.` and `..` special cases are not modelled). -/
def fileName (p : String) : Option String :=
  let base := p.data.foldl (fun acc c => if c = '/' then [] else acc ++ [c]) []
  if base.isEmpty then Option.none else some (String.mk base)

/-- (src/modgen.rs, `struct Tree` and `Tree::push`.) -/
structure Tree where
  root : Node
  deriving DecidableEq

def Tree.new : Tree := ⟨.mk Option.none .nil⟩

def Tree.push (t : Tree) (path : String) : Except Err Tree :=
  match fileName path with
  | Option.none => .error (.fileName path)
  | some fname => .ok ⟨t.root.push path (fileParts fname)⟩

/-- The fold of `modularize` (src/modgen.rs): push every file into the tree,
stopping at the first failure. -/
def Tree.pushAll (ps : List String) : Except Err Tree :=
  ps.foldlM (fun t p => t.push p) Tree.new

-- Sanity checks against the unit tests of src/modgen.rs.
example :
    Tree.pushAll ["/foo/_.rs"] = .ok ⟨.mk (some "/foo/_.rs") .nil⟩ := by decide

example :
    Tree.pushAll ["/tmp/foo/crabs.rs"] =
      .ok ⟨.mk Option.none (.cons "crabs" (.mk (some "/tmp/foo/crabs.rs") .nil) .nil)⟩ := by
  decide

example :
    Tree.pushAll ["/tmp/proto/crabs.disney.ariel.rs", "/tmp/proto/crabs.sponge_bob.rs",
        "/tmp/proto/crabs.rs"] =
      .ok ⟨.mk Option.none (.cons "crabs"
        (.mk (some "/tmp/proto/crabs.rs")
          (.cons "disney"
            (.mk Option.none (.cons "ariel"
              (.mk (some "/tmp/proto/crabs.disney.ariel.rs") .nil) .nil))
            (.cons "sponge_bob" (.mk (some "/tmp/proto/crabs.sponge_bob.rs") .nil) .nil)))
        .nil)⟩ := by
  decide


/-- Lexicographic comparison of character lists by code point; on ASCII names
this is exactly the byte order in which Rust `Vec::sort` orders `OsString`s. -/
def lexLe (a b : List Char) : Bool :=
  match a, b with
  | [], _ => true
  | _ :: _, [] => false
  | c :: cr, d :: dr =>
    if c.toNat < d.toNat then true
    else if d.toNat < c.toNat then false
    else lexLe cr dr

def strLe (a b : String) : Bool := lexLe a.data b.data

/-- `children.sort()` (src/modgen.rs): the child names in ascending
lexicographic order. Insertion sort is used because the result of any sort is
the same list: the order is linear (total, transitive, antisymmetric). -/
def sortedNames (names : List String) : List String :=
  names.insertionSort (fun x y => strLe x y = true)

/-- Explicit file-system state threaded through compilation: file contents and
directory existence by path (segment lists). Writes performed before a
failure stay visible, as on a real disk. -/
structure FS where
  files : List String → Option String
  dirs : List String → Bool

def FS.mkdir (fs : FS) (d : List String) : FS :=
  { fs with dirs := fun q => if q = d then true else fs.dirs q }

def FS.createFile (fs : FS) (p : List String) : FS :=
  { fs with files := fun q => if q = p then some "" else fs.files q }

def FS.appendFile (fs : FS) (p : List String) (s : String) : FS :=
  { fs with files := fun q => if q = p then some (((fs.files p).getD "") ++ s) else fs.files q }

/-- The write phase of `Node::compile` (src/modgen.rs), after all children
have been compiled: create the aggregator file exclusively, write one
declaration line per child name in ascending order, then append the node's
own source contents, separated by one blank line when the node has children.
`hasChildren` mirrors the Rust local `has_children`. -/
def writeModFile (path : Option String) (hasChildren : Bool) (names : List String)
    (dst : List String) (read : String → Option String) (fs2 : FS) : FS × Option Err :=
  match fs2.files (dst ++ ["mod.rs"]) with
  | some _ => (fs2, some (.mkModFile (dst ++ ["mod.rs"])))
  | Option.none =>
    let fs3 := fs2.createFile (dst ++ ["mod.rs"])
    let fs4 := (sortedNames names).foldl
      (fun acc m => acc.appendFile (dst ++ ["mod.rs"]) ("pub mod " ++ m ++ ";\n")) fs3
    match path with
    | Option.none => (fs4, Option.none)
    | some src =>
      match read src with
      | Option.none => (fs4, some (.readSourceFile src))
      | some contents =>
        let fs5 := if hasChildren then fs4.appendFile (dst ++ ["mod.rs"]) "\n" else fs4
        (fs5.appendFile (dst ++ ["mod.rs"]) contents, Option.none)

mutual
/-- (src/modgen.rs, `Node::compile`.) `dst` is the destination directory,
`read` models `fs::read_to_string` on the generated source files. In this
model `create_dir_all` cannot fail and writes to an open file cannot fail;
`File::create_new` fails exactly when the path already exists, and reading a
source file fails exactly when `read` yields nothing — the I/O-environment
failures of the other error kinds are outside the model. -/
def Node.compile : Node → List String → (String → Option String) → FS → FS × Option Err
  | .mk path cs, dst, read, fs =>
    let fs1 := fs.mkdir dst
    match compileChildren cs dst read fs1 with
    | (fs2, .error e) => (fs2, some e)
    | (fs2, .ok names) => writeModFile path (!cs.isEmptyC) names dst read fs2

/-- The children fold of `Node::compile`: compile every child into a
same-named subdirectory, collecting the child names, stopping at the first
failure. -/
def compileChildren : Children → List String → (String → Option String) → FS →
    FS × Except Err (List String)
  | .nil, _, _, fs => (fs, .ok [])
  | .cons name node rest, dst, read, fs =>
    match Node.compile node (dst ++ [name]) read fs with
    | (fs2, some e) => (fs2, .error e)
    | (fs2, Option.none) =>
      match compileChildren rest dst read fs2 with
      | (fs3, .error e) => (fs3, .error e)
      | (fs3, .ok names) => (fs3, .ok (name :: names))
end

/-- The empty file system. -/
def FS.empty : FS := ⟨fun _ => Option.none, fun _ => false⟩

/-- Declaration lines for a list of child names, one `pub mod <name>;` line
each, in list order. -/
def declLines : List String → String
  | [] => ""
  | m :: r => "pub mod " ++ m ++ ";\n" ++ declLines r

/-- Aggregator-file contents described by the specification: one declaration
line per child in ascending lexicographic order of name, then — only if the
node carries a source-file reference — the verbatim contents of that file,
preceded by exactly one blank line when the node also has children. -/
def specAgg (n : Node) (read : String → Option String) : String :=
  declLines (sortedNames n.children.names) ++
    match n.path with
    | Option.none => ""
    | some src => (if n.children.names = [] then "" else "\n") ++ ((read src).getD "")

-- Sanity check: the tree round-trip of the `modularize` unit test, node `c`.
example :
    (Node.compile
      (.mk (some "c.src") (.cons "d" (.mk (some "d.src") .nil) .nil)) []
      (fun s => if s = "c.src" then some "struct Branch;\n"
        else if s = "d.src" then some "struct Leaf;\n" else Option.none)
      FS.empty).1.files ["mod.rs"] = some "pub mod d;\n\nstruct Branch;\n" := by
  decide

example :
    (Node.compile
      (.mk (some "c.src") (.cons "d" (.mk (some "d.src") .nil) .nil)) []
      (fun s => if s = "c.src" then some "struct Branch;\n"
        else if s = "d.src" then some "struct Leaf;\n" else Option.none)
      FS.empty).1.files ["d", "mod.rs"] = some "struct Leaf;\n" := by
  decide

theorem FS.mkdir_files (fs : FS) (d p : List String) : (fs.mkdir d).files p = fs.files p := rfl

theorem FS.createFile_files_ne (fs : FS) {q p : List String} (h : p ≠ q) :
    (fs.createFile q).files p = fs.files p := by
  simp [FS.createFile, h]

theorem FS.appendFile_files_ne (fs : FS) {q p : List String} (s : String) (h : p ≠ q) :
    (fs.appendFile q s).files p = fs.files p := by
  simp [FS.appendFile, h]

theorem FS.createFile_files_self (fs : FS) (q : List String) :
    (fs.createFile q).files q = some "" := by
  simp [FS.createFile]

theorem FS.appendFile_files_self (fs : FS) (q : List String) (s : String) :
    (fs.appendFile q s).files q = some (((fs.files q).getD "") ++ s) := by
  simp [FS.appendFile]

theorem foldl_append_files_ne (ms : List String) {q p : List String} (h : p ≠ q) :
    ∀ fs : FS,
      ((ms.foldl (fun acc m => acc.appendFile q ("pub mod " ++ m ++ ";\n")) fs)).files p =
        fs.files p := by
  induction ms with
  | nil => intro fs; rfl
  | cons m r ih =>
    intro fs
    rw [List.foldl_cons, ih, FS.appendFile_files_ne _ _ h]

theorem foldl_append_files_self (ms : List String) (q : List String) :
    ∀ (fs : FS) (c : String), fs.files q = some c →
      ((ms.foldl (fun acc m => acc.appendFile q ("pub mod " ++ m ++ ";\n")) fs)).files q =
        some (c ++ declLines ms) := by
  induction ms with
  | nil =>
    intro fs c h
    rw [List.foldl_nil, h]
    simp [declLines]
  | cons m r ih =>
    intro fs c h
    rw [List.foldl_cons]
    rw [ih (fs.appendFile q ("pub mod " ++ m ++ ";\n")) (c ++ ("pub mod " ++ m ++ ";\n"))
      (by rw [FS.appendFile_files_self, h]; simp)]
    simp [declLines, String.append_assoc]

theorem writeModFile_files_ne (path : Option String) (hc : Bool) (names : List String)
    (dst : List String) (read : String → Option String) (fs2 : FS) {p : List String}
    (hne : p ≠ dst ++ ["mod.rs"]) :
    ((writeModFile path hc names dst read fs2).1).files p = fs2.files p := by
  unfold writeModFile
  cases hex : fs2.files (dst ++ ["mod.rs"]) with
  | some c => rfl
  | none =>
    dsimp only
    cases path with
    | none =>
      dsimp only
      rw [foldl_append_files_ne _ hne, FS.createFile_files_ne _ hne]
    | some src =>
      dsimp only
      cases read src with
      | none =>
        dsimp only
        rw [foldl_append_files_ne _ hne, FS.createFile_files_ne _ hne]
      | some contents =>
        dsimp only
        cases hc with
        | false =>
          rw [if_neg (by simp)]
          rw [FS.appendFile_files_ne _ _ hne, foldl_append_files_ne _ hne,
            FS.createFile_files_ne _ hne]
        | true =>
          rw [if_pos rfl]
          rw [FS.appendFile_files_ne _ _ hne, FS.appendFile_files_ne _ _ hne,
            foldl_append_files_ne _ hne, FS.createFile_files_ne _ hne]

mutual
theorem Node.compile_frame : ∀ (n : Node) (dst : List String) (read : String → Option String)
    (fs : FS) (p : List String), p.length ≤ dst.length →
      ((Node.compile n dst read fs).1).files p = fs.files p
  | .mk path cs, dst, read, fs, p, hp => by
    have hne : p ≠ dst ++ ["mod.rs"] := by
      intro hcon
      rw [hcon] at hp
      simp at hp
    simp only [Node.compile]
    rcases hcc : compileChildren cs dst read (fs.mkdir dst) with ⟨fs2, res⟩
    have hch : fs2.files p = fs.files p := by
      have h2 := compileChildren_frame cs dst read (fs.mkdir dst) p (Nat.le_succ_of_le hp)
      rw [hcc] at h2
      exact h2
    rcases res with e | names
    · exact hch
    · show ((writeModFile path (!cs.isEmptyC) names dst read fs2).1).files p = _
      rw [writeModFile_files_ne _ _ _ _ _ _ hne]
      exact hch

theorem compileChildren_frame : ∀ (cs : Children) (dst : List String)
    (read : String → Option String) (fs : FS) (p : List String),
    p.length ≤ dst.length + 1 →
      ((compileChildren cs dst read fs).1).files p = fs.files p
  | .nil, _, _, fs, p, _ => rfl
  | .cons name node rest, dst, read, fs, p, hp => by
    simp only [compileChildren]
    rcases hc : Node.compile node (dst ++ [name]) read fs with ⟨fs2, o⟩
    have h2 : fs2.files p = fs.files p := by
      have h3 := Node.compile_frame node (dst ++ [name]) read fs p (by simp; omega)
      rw [hc] at h3
      exact h3
    rcases o with _ | e
    · dsimp only
      rcases hr : compileChildren rest dst read fs2 with ⟨fs3, res2⟩
      have h4 : fs3.files p = fs2.files p := by
        have h5 := compileChildren_frame rest dst read fs2 p hp
        rw [hr] at h5
        exact h5
      rcases res2 with e2 | names2
      · dsimp only; rw [h4]; exact h2
      · dsimp only; rw [h4]; exact h2
    · dsimp only; exact h2
end

theorem compileChildren_names : ∀ (cs : Children) (dst : List String)
    (read : String → Option String) (fs fs2 : FS) (names : List String),
    compileChildren cs dst read fs = (fs2, .ok names) → names = cs.names
  | .nil, dst, read, fs, fs2, names, h => by
    simp only [compileChildren, Prod.mk.injEq, Except.ok.injEq] at h
    exact h.2.symm
  | .cons name node rest, dst, read, fs, fs2, names, h => by
    simp only [compileChildren] at h
    rcases hc : Node.compile node (dst ++ [name]) read fs with ⟨fsa, o⟩
    rw [hc] at h
    rcases o with _ | e
    · dsimp only at h
      rcases hr : compileChildren rest dst read fsa with ⟨fsb, res2⟩
      rw [hr] at h
      rcases res2 with e2 | names2
      · dsimp only at h; simp at h
      · dsimp only at h
        simp only [Prod.mk.injEq, Except.ok.injEq] at h
        rw [← h.2]
        show name :: names2 = name :: rest.names
        rw [compileChildren_names rest dst read fsa fsb names2 hr]
    · dsimp only at h; simp at h

theorem lexLe_total : ∀ a b : List Char, lexLe a b = true ∨ lexLe b a = true := by
  intro a
  induction a with
  | nil => intro b; left; rfl
  | cons c cr ih =>
    intro b
    cases b with
    | nil => right; rfl
    | cons d dr =>
      simp only [lexLe]
      by_cases h1 : c.toNat < d.toNat
      · left; rw [if_pos h1]
      · by_cases h2 : d.toNat < c.toNat
        · right; rw [if_pos h2]
        · rw [if_neg h1, if_neg h2, if_neg h2, if_neg h1]
          exact ih dr

theorem lexLe_trans : ∀ a b c : List Char,
    lexLe a b = true → lexLe b c = true → lexLe a c = true := by
  intro a
  induction a with
  | nil => intro b c _ _; rfl
  | cons x xr ih =>
    intro b c hab hbc
    cases b with
    | nil => simp [lexLe] at hab
    | cons y yr =>
      cases c with
      | nil => simp [lexLe] at hbc
      | cons z zr =>
        simp only [lexLe] at hab hbc ⊢
        by_cases h1 : x.toNat < y.toNat
        · by_cases h2 : y.toNat < z.toNat
          · rw [if_pos (by omega)]
          · by_cases h3 : z.toNat < y.toNat
            · rw [if_neg h2, if_pos h3] at hbc
              exact absurd hbc (by simp)
            · rw [if_pos (by omega)]
        · by_cases h1' : y.toNat < x.toNat
          · rw [if_neg h1, if_pos h1'] at hab
            exact absurd hab (by simp)
          · rw [if_neg h1, if_neg h1'] at hab
            by_cases h2 : y.toNat < z.toNat
            · rw [if_pos (by omega)]
            · by_cases h3 : z.toNat < y.toNat
              · rw [if_neg h2, if_pos h3] at hbc
                exact absurd hbc (by simp)
              · rw [if_neg h2, if_neg h3] at hbc
                rw [if_neg (by omega), if_neg (by omega)]
                exact ih yr zr hab hbc

theorem names_eq_nil_iff (cs : Children) : cs.names = [] ↔ cs.isEmptyC = true := by
  cases cs <;> simp [Children.names, Children.isEmptyC]

/-- The part of the aggregator file after the declaration lines. -/
def tailContent (path : Option String) (hc : Bool) (read : String → Option String) : String :=
  match path with
  | Option.none => ""
  | some src => (if hc then "\n" else "") ++ ((read src).getD "")

theorem writeModFile_ok_content (path : Option String) (hc : Bool) (names : List String)
    (dst : List String) (read : String → Option String) (fs2 fs' : FS)
    (h : writeModFile path hc names dst read fs2 = (fs', Option.none)) :
    fs'.files (dst ++ ["mod.rs"]) =
      some (declLines (sortedNames names) ++ tailContent path hc read) := by
  unfold writeModFile at h
  cases hex : fs2.files (dst ++ ["mod.rs"]) with
  | some c => rw [hex] at h; simp at h
  | none =>
    rw [hex] at h
    dsimp only at h
    cases path with
    | none =>
      dsimp only at h
      simp only [Prod.mk.injEq] at h
      rw [← h.1, foldl_append_files_self _ _ _ "" (FS.createFile_files_self fs2 _)]
      simp [tailContent]
    | some src =>
      dsimp only at h
      cases hread : read src with
      | none => rw [hread] at h; simp at h
      | some contents =>
        rw [hread] at h
        dsimp only at h
        cases hc with
        | false =>
          rw [if_neg (by simp)] at h
          simp only [Prod.mk.injEq] at h
          rw [← h.1, FS.appendFile_files_self,
            foldl_append_files_self _ _ _ "" (FS.createFile_files_self fs2 _)]
          simp [tailContent, hread]
        | true =>
          rw [if_pos rfl] at h
          simp only [Prod.mk.injEq] at h
          rw [← h.1, FS.appendFile_files_self, FS.appendFile_files_self,
            foldl_append_files_self _ _ _ "" (FS.createFile_files_self fs2 _)]
          simp [tailContent, hread, String.append_assoc]

/-- C4: on every successful compilation of a node, the aggregator file
created at `dst/mod.rs` contains one declaration line per child in ascending
lexicographic order of child name, then — only if the node carries a
source-file reference — the verbatim contents of that source, preceded by
exactly one blank line when the node also has at least one child and by no
separator otherwise (`specAgg`); the name list used is sorted ascending and
is a permutation of the children; and a node with neither children nor a
file reference compiles without error to an empty aggregator file. -/
theorem C4_aggregator_file :
    (∀ (n : Node) (dst : List String) (read : String → Option String) (fs fs' : FS),
      Node.compile n dst read fs = (fs', Option.none) →
        fs'.files (dst ++ ["mod.rs"]) = some (specAgg n read) ∧
        List.Pairwise (fun x y => strLe x y = true) (sortedNames n.children.names) ∧
        (sortedNames n.children.names).Perm n.children.names) ∧
    (∀ (dst : List String) (read : String → Option String) (fs : FS),
      fs.files (dst ++ ["mod.rs"]) = Option.none →
        Node.compile (.mk Option.none .nil) dst read fs =
          ((fs.mkdir dst).createFile (dst ++ ["mod.rs"]), Option.none) ∧
        ((fs.mkdir dst).createFile (dst ++ ["mod.rs"])).files (dst ++ ["mod.rs"]) =
          some "") := by
  constructor
  · intro n dst read fs fs' h
    obtain ⟨path, cs⟩ := n
    simp only [Node.compile] at h
    rcases hcc : compileChildren cs dst read (fs.mkdir dst) with ⟨fs2, res⟩
    rw [hcc] at h
    rcases res with e | names
    · dsimp only at h; simp at h
    · dsimp only at h
      have hnames : names = cs.names := compileChildren_names cs dst read _ _ _ hcc
      subst hnames
      refine ⟨?_, ?_, ?_⟩
      · rw [writeModFile_ok_content _ _ _ _ _ _ _ h]
        show some (declLines (sortedNames cs.names) ++ tailContent path (!cs.isEmptyC) read) =
          some (specAgg (.mk path cs) read)
        unfold specAgg tailContent
        cases path with
        | none => rfl
        | some src =>
          show some (declLines (sortedNames cs.names) ++
              ((if (!cs.isEmptyC) then "\n" else "") ++ ((read src).getD ""))) =
            some (declLines (sortedNames cs.names) ++
              ((if cs.names = [] then "" else "\n") ++ ((read src).getD "")))
          by_cases hemp : cs.names = []
          · rw [if_pos hemp, (names_eq_nil_iff cs).mp hemp]
            simp
          · have he2 : cs.isEmptyC = false := by
              cases hq : cs.isEmptyC
              · rfl
              · exact absurd ((names_eq_nil_iff cs).mpr hq) hemp
            rw [if_neg hemp, he2]
            simp
      · haveI : IsTotal String (fun x y => strLe x y = true) :=
          ⟨fun a b => lexLe_total a.data b.data⟩
        haveI : IsTrans String (fun x y => strLe x y = true) :=
          ⟨fun a b c => lexLe_trans a.data b.data c.data⟩
        exact List.sorted_insertionSort _ _
      · exact List.perm_insertionSort _ _
  · intro dst read fs hnone
    constructor
    · simp only [Node.compile]
      have h0 : compileChildren .nil dst read (fs.mkdir dst) = ((fs.mkdir dst), .ok []) := rfl
      rw [h0]
      dsimp only
      unfold writeModFile
      have h1 : (fs.mkdir dst).files (dst ++ ["mod.rs"]) = Option.none := hnone
      rw [h1]
      rfl
    · rw [FS.createFile_files_self]

/-- Witness node for C4: a node with one child and a source-file reference. -/
def exNodeC4 : Node := .mk (some "c.src") (.cons "d" (.mk Option.none .nil) .nil)

def exReadC4 : String → Option String :=
  fun s => if s = "c.src" then some "struct C;\n" else Option.none

/-- Witness for C4, applying the theorem at a concrete node and file system. -/
theorem C4_aggregator_file_witness :
    ((Node.compile exNodeC4 [] exReadC4 FS.empty).1).files ([] ++ ["mod.rs"]) =
        some (specAgg exNodeC4 exReadC4) ∧
      List.Pairwise (fun x y => strLe x y = true) (sortedNames exNodeC4.children.names) ∧
      (sortedNames exNodeC4.children.names).Perm exNodeC4.children.names :=
  C4_aggregator_file.1 exNodeC4 [] exReadC4 FS.empty _ rfl

/-- The node's own source reference, if any, is readable. -/
def pathReadable (path : Option String) (read : String → Option String) : Bool :=
  match path with
  | Option.none => true
  | some src => (read src).isSome

mutual
/-- All source files referenced in the subtree are readable. -/
def Node.readable : Node → (String → Option String) → Bool
  | .mk p cs, read => pathReadable p read && Children.readableC cs read

def Children.readableC : Children → (String → Option String) → Bool
  | .nil, _ => true
  | .cons _ v r, read => Node.readable v read && Children.readableC r read
end

theorem writeModFile_err (path : Option String) (hc : Bool) (names : List String)
    (dst : List String) (read : String → Option String) (fs2 : FS) {e : Err}
    (h : (writeModFile path hc names dst read fs2).2 = some e) :
    e = .mkModFile (dst ++ ["mod.rs"]) ∨
      ∃ src, path = some src ∧ read src = Option.none ∧ e = .readSourceFile src := by
  unfold writeModFile at h
  cases hex : fs2.files (dst ++ ["mod.rs"]) with
  | some c =>
    rw [hex] at h
    dsimp only at h
    injection h with h2
    exact Or.inl h2.symm
  | none =>
    rw [hex] at h
    dsimp only at h
    cases path with
    | none => dsimp only at h; simp at h
    | some src =>
      dsimp only at h
      cases hread : read src with
      | none =>
        rw [hread] at h
        dsimp only at h
        injection h with h2
        exact Or.inr ⟨src, rfl, hread, h2.symm⟩
      | some contents =>
        rw [hread] at h
        dsimp only at h
        simp at h

mutual
theorem Node.compile_err : ∀ (n : Node) (dst : List String)
    (read : String → Option String) (fs : FS) {e : Err},
    n.readable read = true → (Node.compile n dst read fs).2 = some e →
      ∃ p, e = .mkModFile p
  | .mk path cs, dst, read, fs, e, hr, h => by
    have hrp : pathReadable path read = true ∧ cs.readableC read = true := by
      simpa [Node.readable, Bool.and_eq_true] using hr
    simp only [Node.compile] at h
    rcases hcc : compileChildren cs dst read (fs.mkdir dst) with ⟨fs2, res⟩
    rw [hcc] at h
    rcases res with e2 | names
    · dsimp only at h
      injection h with h2
      rw [← h2]
      exact compileChildren_err cs dst read (fs.mkdir dst) hrp.2 (by rw [hcc])
    · dsimp only at h
      rcases writeModFile_err path _ names dst read fs2 h with hmk | ⟨src, hp, hrd, he⟩
      · exact ⟨_, hmk⟩
      · have h3 := hrp.1
        rw [hp] at h3
        simp [pathReadable, hrd] at h3

theorem compileChildren_err : ∀ (cs : Children) (dst : List String)
    (read : String → Option String) (fs : FS) {e : Err},
    cs.readableC read = true → (compileChildren cs dst read fs).2 = .error e →
      ∃ p, e = .mkModFile p
  | .nil, dst, read, fs, e, _, h => by simp [compileChildren] at h
  | .cons name node rest, dst, read, fs, e, hr, h => by
    have hrp : node.readable read = true ∧ rest.readableC read = true := by
      simpa [Children.readableC, Bool.and_eq_true] using hr
    simp only [compileChildren] at h
    rcases hc : Node.compile node (dst ++ [name]) read fs with ⟨fs2, o⟩
    rw [hc] at h
    rcases o with _ | e1
    · dsimp only at h
      rcases hr2 : compileChildren rest dst read fs2 with ⟨fs3, r2⟩
      rw [hr2] at h
      rcases r2 with e2 | names2
      · dsimp only at h
        injection h with h2
        rw [← h2]
        exact compileChildren_err rest dst read fs2 hrp.2 (by rw [hr2])
      · dsimp only at h; simp at h
    · dsimp only at h
      injection h with h2
      rw [← h2]
      exact Node.compile_err node (dst ++ [name]) read fs hrp.1 (by rw [hc])
end

/-- C8: compiling a node into a destination whose aggregator file `dst/mod.rs`
already exists fails — assuming every referenced source file is readable, so
that no read failure can pre-empt it — with the destination-create-failure
kind `MkModFile`, and the existing file's contents are not overwritten. -/
theorem C8_exclusive_create (n : Node) (dst : List String)
    (read : String → Option String) (fs : FS) (c : String)
    (hex : fs.files (dst ++ ["mod.rs"]) = some c)
    (hr : n.readable read = true) :
    (∃ p, (Node.compile n dst read fs).2 = some (Err.mkModFile p)) ∧
      ((Node.compile n dst read fs).1).files (dst ++ ["mod.rs"]) = some c := by
  obtain ⟨path, cs⟩ := n
  have hrp : pathReadable path read = true ∧ cs.readableC read = true := by
    simpa [Node.readable, Bool.and_eq_true] using hr
  simp only [Node.compile]
  rcases hcc : compileChildren cs dst read (fs.mkdir dst) with ⟨fs2, res⟩
  have hpres : fs2.files (dst ++ ["mod.rs"]) = some c := by
    have h2 := compileChildren_frame cs dst read (fs.mkdir dst) (dst ++ ["mod.rs"]) (by simp)
    rw [hcc] at h2
    rw [h2]
    exact hex
  rcases res with e | names
  · dsimp only
    refine ⟨?_, hpres⟩
    have he := compileChildren_err cs dst read (fs.mkdir dst) hrp.2 (by rw [hcc])
    rcases he with ⟨p, rfl⟩
    exact ⟨p, rfl⟩
  · dsimp only
    unfold writeModFile
    rw [hpres]
    exact ⟨⟨dst ++ ["mod.rs"], rfl⟩, hpres⟩

/-- Witness file system for C8: the aggregator file already exists at the
destination root. -/
def exFS8 : FS := ⟨fun q => if q = ["mod.rs"] then some "old" else Option.none, fun _ => false⟩

/-- Witness for C8 at a concrete node and file system. -/
theorem C8_exclusive_create_witness :
    (∃ p, (Node.compile (.mk Option.none .nil) [] (fun _ => Option.none) exFS8).2 =
        some (Err.mkModFile p)) ∧
      ((Node.compile (.mk Option.none .nil) [] (fun _ => Option.none) exFS8).1).files
        ([] ++ ["mod.rs"]) = some "old" :=
  C8_exclusive_create (.mk Option.none .nil) [] (fun _ => Option.none) exFS8 "old"
    (by decide) (by decide)

/-- C9: pushing a path whose dotted base name is exactly the reserved root
placeholder `_` attaches the file reference at the current node and creates
no new child: the children map is returned unchanged. The first conjunct
checks that such a file name indeed parses to the single placeholder
segment. -/
theorem C9_root_placeholder :
    fileParts "_.rs" = ["_"] ∧
    ∀ (op : Option String) (cs : Children) (p : String),
      Node.push (.mk op cs) p ["_"] = .mk (some p) cs := by
  constructor
  · decide
  · intro op cs p
    rfl

/-- Pushing a segment list is the same as pushing it with every placeholder
segment removed (src/modgen.rs, `Node::push`, the `part == "_"` arm). -/
theorem push_filter_eq : ∀ (n : Node) (p : String) (segs : List String),
    Node.push n p segs = Node.push n p (segs.filter (fun s => decide (s ≠ "_"))) := by
  intro n p segs
  induction segs generalizing n with
  | nil => rfl
  | cons part rest ih =>
    obtain ⟨op, cs⟩ := n
    by_cases hp : part = "_"
    · subst hp
      have hl : ("_" :: rest).filter (fun s => decide (s ≠ "_")) =
          rest.filter (fun s => decide (s ≠ "_")) := by
        simp [List.filter]
      rw [hl]
      show Node.push (.mk op cs) p rest = _
      exact ih (.mk op cs)
    · have hf : (part :: rest).filter (fun s => decide (s ≠ "_")) =
          part :: rest.filter (fun s => decide (s ≠ "_")) := by
        simp [List.filter, hp]
      rw [hf]
      simp only [Node.push]
      rw [if_neg hp, ih, if_neg hp]

/-- C10: every placeholder segment `_` is skipped wherever it occurs in the
dotted name: pushing a segment list is the same as pushing it with all `_`
segments removed; in particular `a._.b.ext` attaches its file at node `b`
directly under node `a`, and no node named `_` is ever created. -/
theorem C10_placeholder_skipped_anywhere :
    (∀ (n : Node) (p : String) (segs : List String),
      Node.push n p segs = Node.push n p (segs.filter (fun s => decide (s ≠ "_")))) ∧
    Node.push (.mk Option.none .nil) "a._.b.ext" (fileParts "a._.b.ext") =
      .mk Option.none (.cons "a"
        (.mk Option.none (.cons "b" (.mk (some "a._.b.ext") .nil) .nil)) .nil) :=
  ⟨push_filter_eq, by decide⟩

/-- C5 counterexample: the base names `a._` and `a.` — here realised as the
files `a._.rs` and `a.rs` — are pairwise distinct dotted base names, yet the
two orders of pushing them produce different trees: the placeholder segment
collapses `a._` onto the node `a` that `a` itself occupies, and the stored
file reference is whichever was pushed last. -/
theorem C5_counterexample :
    fileParts "a._.rs" ≠ fileParts "a.rs" ∧
    Tree.pushAll ["/x/a._.rs", "/y/a.rs"] =
      .ok ⟨.mk Option.none (.cons "a" (.mk (some "/y/a.rs") .nil) .nil)⟩ ∧
    Tree.pushAll ["/y/a.rs", "/x/a._.rs"] =
      .ok ⟨.mk Option.none (.cons "a" (.mk (some "/x/a._.rs") .nil) .nil)⟩ ∧
    (⟨.mk Option.none (.cons "a" (.mk (some "/y/a.rs") .nil) .nil)⟩ : Tree) ≠
      ⟨.mk Option.none (.cons "a" (.mk (some "/x/a._.rs") .nil) .nil)⟩ := by
  refine ⟨by decide, by decide, by decide, by decide⟩


theorem removeGet_fst : ∀ (cs : Children) (k : String), (cs.removeGet k).1 = cs.lookup k
  | .nil, k => rfl
  | .cons n v r, k => by
    simp only [Children.removeGet, Children.lookup]
    by_cases h : n = k
    · rw [if_pos h, if_pos h]
    · rw [if_neg h, if_neg h]
      exact removeGet_fst r k

theorem lookup_removeGet_self : ∀ (cs : Children) (k : String),
    ((cs.removeGet k).2).lookup k = Option.none
  | .nil, k => rfl
  | .cons n v r, k => by
    simp only [Children.removeGet]
    by_cases h : n = k
    · rw [if_pos h]
      exact lookup_removeGet_self r k
    · rw [if_neg h]
      simp only [Children.lookup]
      rw [if_neg h]
      exact lookup_removeGet_self r k

theorem lookup_removeGet_ne : ∀ (cs : Children) (k j : String), j ≠ k →
    ((cs.removeGet k).2).lookup j = cs.lookup j
  | .nil, k, j, h => rfl
  | .cons n v r, k, j, h => by
    simp only [Children.removeGet]
    by_cases hn : n = k
    · rw [if_pos hn]
      simp only [Children.lookup]
      rw [if_neg (fun hnj => h (hnj.symm.trans hn))]
      exact lookup_removeGet_ne r k j h
    · rw [if_neg hn]
      simp only [Children.lookup]
      by_cases hnj : n = j
      · rw [if_pos hnj, if_pos hnj]
      · rw [if_neg hnj, if_neg hnj]
        exact lookup_removeGet_ne r k j h

theorem lookup_insertEnd_ne : ∀ (cs : Children) (k j : String) (v : Node), j ≠ k →
    (cs.insertEnd k v).lookup j = cs.lookup j
  | .nil, k, j, v, h => by
    simp only [Children.insertEnd, Children.lookup]
    rw [if_neg (fun hc => h hc.symm)]
  | .cons n w r, k, j, v, h => by
    simp only [Children.insertEnd, Children.lookup]
    by_cases hnj : n = j
    · rw [if_pos hnj, if_pos hnj]
    · rw [if_neg hnj, if_neg hnj]
      exact lookup_insertEnd_ne r k j v h

theorem lookup_insertEnd_self : ∀ (cs : Children) (k : String) (v : Node),
    cs.lookup k = Option.none → (cs.insertEnd k v).lookup k = some v
  | .nil, k, v, _ => by
    simp [Children.insertEnd, Children.lookup]
  | .cons n w r, k, v, h => by
    simp only [Children.lookup] at h
    by_cases hn : n = k
    · rw [if_pos hn] at h
      simp at h
    · rw [if_neg hn] at h
      simp only [Children.insertEnd, Children.lookup]
      rw [if_neg hn]
      exact lookup_insertEnd_self r k v h

/-- Looking up after the remove-then-insert update performed by `Node.push`. -/
theorem lookup_update (cs : Children) (k j : String) (v : Node) :
    ((cs.removeGet k).2.insertEnd k v).lookup j = if j = k then some v else cs.lookup j := by
  by_cases h : j = k
  · rw [if_pos h, h]
    exact lookup_insertEnd_self _ k v (lookup_removeGet_self cs k)
  · rw [if_neg h, lookup_insertEnd_ne _ k j v h, lookup_removeGet_ne cs k j h]

theorem push_nil (op : Option String) (cs : Children) (p : String) :
    Node.push (.mk op cs) p [] = .mk (some p) cs := rfl

theorem push_skip (op : Option String) (cs : Children) (p : String) (rest : List String) :
    Node.push (.mk op cs) p ("_" :: rest) = Node.push (.mk op cs) p rest := by
  simp [Node.push]

theorem push_cons_ne (op : Option String) (cs : Children) (p k : String)
    (rest : List String) (h : k ≠ "_") :
    Node.push (.mk op cs) p (k :: rest) =
      .mk op ((cs.removeGet k).2.insertEnd k
        (((cs.lookup k).getD (.mk Option.none .nil)).push p rest)) := by
  simp only [Node.push]
  rw [if_neg h, removeGet_fst]

theorem lookup_sizeOf : ∀ (cs : Children) (k : String) (n : Node),
    cs.lookup k = some n → sizeOf n < sizeOf cs
  | .nil, k, n, h => by simp [Children.lookup] at h
  | .cons m v r, k, n, h => by
    simp only [Children.lookup] at h
    by_cases hm : m = k
    · rw [if_pos hm] at h
      injection h with h2
      subst h2
      simp
      omega
    · rw [if_neg hm] at h
      have := lookup_sizeOf r k n h
      simp
      omega

mutual
/-- Equality of trees as Rust's derived `PartialEq` sees it: equal file
references and equal children as unordered maps (`HashMap` equality compares
key sets and values, ignoring order). -/
inductive NodeEquiv : Node → Node → Prop
  | mk {p1 p2 : Option String} {c1 c2 : Children} :
      p1 = p2 → ChildrenEquiv c1 c2 → NodeEquiv (.mk p1 c1) (.mk p2 c2)

inductive ChildrenEquiv : Children → Children → Prop
  | mk {c1 c2 : Children} :
      (∀ k, OptNodeEquiv (c1.lookup k) (c2.lookup k)) → ChildrenEquiv c1 c2

inductive OptNodeEquiv : Option Node → Option Node → Prop
  | none : OptNodeEquiv Option.none Option.none
  | some {a b : Node} : NodeEquiv a b → OptNodeEquiv (some a) (some b)
end

theorem nodeEquiv_refl : ∀ (n : Node), NodeEquiv n n
  | .mk p cs => NodeEquiv.mk rfl (ChildrenEquiv.mk (fun k =>
      match hk : cs.lookup k with
      | Option.none => OptNodeEquiv.none
      | some m => OptNodeEquiv.some (nodeEquiv_refl m)))
termination_by n => sizeOf n
decreasing_by
  have := lookup_sizeOf cs k m hk
  simp
  omega

theorem optEquiv_refl : ∀ (o : Option Node), OptNodeEquiv o o
  | Option.none => .none
  | some n => .some (nodeEquiv_refl n)

theorem nodeEquiv_trans : ∀ (a b c : Node), NodeEquiv a b → NodeEquiv b c → NodeEquiv a c
  | .mk p1 c1, .mk p2 c2, .mk p3 c3, .mk hp12 hc12, .mk hp23 hc23 => by
    rcases hc12 with ⟨hl12⟩
    rcases hc23 with ⟨hl23⟩
    refine NodeEquiv.mk (hp12.trans hp23) (ChildrenEquiv.mk (fun k => ?_))
    have h12 := hl12 k
    have h23 := hl23 k
    cases hk1 : c1.lookup k with
    | none =>
      rw [hk1] at h12
      cases hk2 : c2.lookup k with
      | none =>
        rw [hk2] at h23
        cases hk3 : c3.lookup k with
        | none => exact .none
        | some n3 => rw [hk3] at h23; cases h23
      | some n2 => rw [hk2] at h12; cases h12
    | some n1 =>
      rw [hk1] at h12
      cases hk2 : c2.lookup k with
      | none => rw [hk2] at h12; cases h12
      | some n2 =>
        rw [hk2] at h12 h23
        cases hk3 : c3.lookup k with
        | none => rw [hk3] at h23; cases h23
        | some n3 =>
          rw [hk3] at h23
          cases h12 with
          | some hab =>
            cases h23 with
            | some hbc =>
              exact .some (nodeEquiv_trans n1 n2 n3 hab hbc)
termination_by a b c h1 h2 => sizeOf a
decreasing_by
  have := lookup_sizeOf c1 k n1 hk1
  simp
  omega


theorem push_congr : ∀ (segs : List String) (n n2 : Node), NodeEquiv n n2 →
    ∀ (p : String), NodeEquiv (n.push p segs) (n2.push p segs)
  | [], .mk p1 c1, .mk p2 c2, h, p => by
    rcases h with ⟨hp, hc⟩
    exact NodeEquiv.mk rfl hc
  | k :: rest, .mk p1 c1, .mk p2 c2, h, p => by
    rcases h with ⟨hp, hc⟩
    by_cases hk : k = "_"
    · subst hk
      rw [push_skip, push_skip]
      exact push_congr rest _ _ (NodeEquiv.mk hp hc) p
    · rw [push_cons_ne p1 c1 p k rest hk, push_cons_ne p2 c2 p k rest hk]
      refine NodeEquiv.mk hp (ChildrenEquiv.mk (fun j => ?_))
      rw [lookup_update, lookup_update]
      by_cases hj : j = k
      · rw [if_pos hj, if_pos hj]
        rcases hc with ⟨hl⟩
        have hlk := hl k
        cases hk1 : c1.lookup k with
        | none =>
          rw [hk1] at hlk
          cases hk2 : c2.lookup k with
          | none =>
            exact OptNodeEquiv.some (push_congr rest _ _ (nodeEquiv_refl _) p)
          | some m2 => rw [hk2] at hlk; cases hlk
        | some m1 =>
          rw [hk1] at hlk
          cases hk2 : c2.lookup k with
          | none => rw [hk2] at hlk; cases hlk
          | some m2 =>
            rw [hk2] at hlk
            cases hlk with
            | some hm =>
              exact OptNodeEquiv.some (push_congr rest _ _ hm p)
      · rw [if_neg hj, if_neg hj]
        rcases hc with ⟨hl⟩
        exact hl j

theorem push_nil_comm (op : Option String) (cs : Children) (p1 p2 k : String)
    (r : List String) (hk : k ≠ "_") :
    ((Node.mk op cs).push p1 []).push p2 (k :: r) =
      ((Node.mk op cs).push p2 (k :: r)).push p1 [] := by
  rw [push_nil, push_cons_ne (some p1) cs p2 k r hk, push_cons_ne op cs p2 k r hk, push_nil]


/-- Two pushes with distinct placeholder-free segment lists commute up to
map-equality of the resulting trees. -/
theorem push_comm_clean : ∀ (N : Nat) (n : Node) (p1 p2 : String) (s1 s2 : List String),
    s1.length + s2.length ≤ N →
    (∀ x ∈ s1, x ≠ "_") → (∀ x ∈ s2, x ≠ "_") → s1 ≠ s2 →
    NodeEquiv ((n.push p1 s1).push p2 s2) ((n.push p2 s2).push p1 s1) := by
  intro N
  induction N with
  | zero =>
    intro n p1 p2 s1 s2 hlen h1 h2 hne
    cases s1 with
    | nil =>
      cases s2 with
      | nil => exact absurd rfl hne
      | cons a b => simp at hlen
    | cons a b => simp at hlen
  | succ N ih =>
    intro n p1 p2 s1 s2 hlen h1 h2 hne
    obtain ⟨op, cs⟩ := n
    cases s1 with
    | nil =>
      cases s2 with
      | nil => exact absurd rfl hne
      | cons k2 r2 =>
        have hk2 : k2 ≠ "_" := h2 k2 (List.mem_cons_self _ _)
        rw [push_nil_comm op cs p1 p2 k2 r2 hk2]
        exact nodeEquiv_refl _
    | cons k1 r1 =>
      have hk1 : k1 ≠ "_" := h1 k1 (List.mem_cons_self _ _)
      cases s2 with
      | nil =>
        rw [push_nil_comm op cs p2 p1 k1 r1 hk1]
        exact nodeEquiv_refl _
      | cons k2 r2 =>
        have hk2 : k2 ≠ "_" := h2 k2 (List.mem_cons_self _ _)
        by_cases hkk : k1 = k2
        · subst hkk
          have hr : r1 ≠ r2 := fun hc => hne (by rw [hc])
          rw [push_cons_ne op cs p1 k1 r1 hk1, push_cons_ne op cs p2 k1 r2 hk1]
          rw [push_cons_ne _ _ p2 k1 r2 hk1, push_cons_ne _ _ p1 k1 r1 hk1]
          refine NodeEquiv.mk rfl (ChildrenEquiv.mk (fun j => ?_))
          by_cases hj : j = k1
          · subst hj
            simp only [lookup_update, if_pos rfl, Option.getD_some]
            refine OptNodeEquiv.some ?_
            refine ih _ p1 p2 r1 r2 ?_ ?_ ?_ hr
            · simp at hlen
              omega
            · intro x hx
              exact h1 x (List.mem_cons_of_mem _ hx)
            · intro x hx
              exact h2 x (List.mem_cons_of_mem _ hx)
          · simp only [lookup_update, if_neg hj]
            exact optEquiv_refl _
        · rw [push_cons_ne op cs p1 k1 r1 hk1, push_cons_ne op cs p2 k2 r2 hk2]
          rw [push_cons_ne _ _ p2 k2 r2 hk2, push_cons_ne _ _ p1 k1 r1 hk1]
          refine NodeEquiv.mk rfl (ChildrenEquiv.mk (fun j => ?_))
          by_cases hj2 : j = k2
          · subst hj2
            simp only [lookup_update, if_pos rfl, if_neg (fun hc => hkk (Eq.symm hc)),
              Option.getD_some]
            exact optEquiv_refl _
          · by_cases hj1 : j = k1
            · subst hj1
              simp only [lookup_update, if_pos rfl, if_neg hj2, Option.getD_some]
              exact optEquiv_refl _
            · simp only [lookup_update, if_neg hj1, if_neg hj2]
              exact optEquiv_refl _


/-- Pushes whose segment lists differ after dropping `_` placeholders commute. -/
theorem push_comm (n : Node) (p1 p2 : String) (s1 s2 : List String)
    (hne : s1.filter (fun s => decide (s ≠ "_")) ≠ s2.filter (fun s => decide (s ≠ "_"))) :
    NodeEquiv ((n.push p1 s1).push p2 s2) ((n.push p2 s2).push p1 s1) := by
  rw [push_filter_eq n p1 s1]
  rw [push_filter_eq n p2 s2]
  rw [push_filter_eq _ p2 s2]
  rw [push_filter_eq _ p1 s1]
  refine push_comm_clean
    ((s1.filter (fun s => decide (s ≠ "_"))).length + (s2.filter (fun s => decide (s ≠ "_"))).length)
    n p1 p2 _ _ (le_refl _) ?_ ?_ hne
  · intro x hx
    exact of_decide_eq_true (List.mem_filter.mp hx).2
  · intro x hx
    exact of_decide_eq_true (List.mem_filter.mp hx).2

/-- Folding a list of (path, segments) pairs into a node with `Node.push`. -/
def pushList (t : Node) (l : List (String × List String)) : Node :=
  l.foldl (fun n e => Node.push n e.1 e.2) t

theorem pushList_congr : ∀ (l : List (String × List String)) (t t2 : Node),
    NodeEquiv t t2 → NodeEquiv (pushList t l) (pushList t2 l)
  | [], t, t2, h => h
  | e :: r, t, t2, h => pushList_congr r _ _ (push_congr e.2 t t2 h e.1)

/-- If the filtered segment lists are pairwise distinct, any permutation of the
inputs folds to an equivalent tree. -/
theorem pushAll_perm_equiv : ∀ {l1 l2 : List (String × List String)}, l1.Perm l2 →
    l1.Pairwise (fun a b =>
      a.2.filter (fun s => decide (s ≠ "_")) ≠ b.2.filter (fun s => decide (s ≠ "_"))) →
    ∀ t, NodeEquiv (pushList t l1) (pushList t l2) := by
  intro l1 l2 hp
  induction hp with
  | nil =>
    intro _ t
    exact nodeEquiv_refl _
  | cons x hr ih =>
    intro hd t
    exact ih hd.of_cons (t.push x.1 x.2)
  | swap x y l =>
    intro hd t
    show NodeEquiv (pushList ((t.push y.1 y.2).push x.1 x.2) l)
      (pushList ((t.push x.1 x.2).push y.1 y.2) l)
    apply pushList_congr
    have hyx := (List.pairwise_cons.mp hd).1 x (List.mem_cons_self _ _)
    exact push_comm t y.1 x.1 y.2 x.2 hyx
  | trans h12 h23 ih12 ih23 =>
    intro hd t
    refine nodeEquiv_trans _ _ _ (ih12 hd t) (ih23 ?_ t)
    exact hd.perm h12 (fun hab => Ne.symm hab)


/-- C5 (amended): building the module tree is commutative over input order up
to map equality of trees: for every list of (path, dotted-base-name segments)
pairs whose segment lists are pairwise distinct after dropping `_` placeholder
segments, folding the pushes in any permutation of the list yields the same
tree, where trees are compared with equal file references and children compared
as unordered name-to-subtree maps. (The original claim, stated for plain
pairwise-distinct dotted base names and on-the-nose equality, is refuted by
`Modgen.C5_counterexample`: `a._.rs` and `a.rs` are distinct base names that
collapse to the same tree node once `_` segments are skipped, so the last
pushed path wins and order matters.) -/
theorem C5_amended (l1 l2 : List (String × List String))
    (hperm : l1.Perm l2)
    (hdist : l1.Pairwise (fun a b =>
      a.2.filter (fun s => decide (s ≠ "_")) ≠ b.2.filter (fun s => decide (s ≠ "_")))) :
    NodeEquiv (pushList (.mk Option.none .nil) l1) (pushList (.mk Option.none .nil) l2) :=
  pushAll_perm_equiv hperm hdist (.mk Option.none .nil)

theorem C5_amended_witness :
    NodeEquiv
      (pushList (.mk Option.none .nil) [("/x/a.rs", ["a"]), ("/y/b.rs", ["b"])])
      (pushList (.mk Option.none .nil) [("/y/b.rs", ["b"]), ("/x/a.rs", ["a"])]) :=
  C5_amended _ _ (List.Perm.swap _ _ _) (by decide)

end Modgen
